import Mathlib

/-!
Verification development for the jsonlitedb library (src/jsonlitedb.py).

The Python source is shallowly embedded: strings become `List Char`,
Python ints become `Int` (they are unbounded), dictionaries become
insertion-ordered association lists, fallible code returns `Except PyErr`
or `Option`, and the two sources of run-time nondeterminism are made
explicit:

* `randkey` (a random placeholder token) is modelled by a counter-indexed
  supply of distinct tokens over the same alphabet shape
  (`!>>` body `<<!`); the counter is threaded explicitly.
* `split_no_double_quotes` replaces regex-matched double-quoted spans by
  random strings, splits, and restores; assuming the random string
  collides with nothing (the source's intent), this is exactly "split on
  the delimiter outside the regex-matched spans", which is how it is
  modelled here — including that the regex `\".*?\"` never matches
  across a newline, so a quote whose closer sits past a newline protects
  nothing.

Mutation of `Query` objects is modelled twice, consistently: by pure state
transformers on `QState` (the state threading used by the compiler
theorems) and by a heap of `QState`s with explicit references (used for
the aliasing theorems).
-/

set_option linter.unusedVariables false

/-! ## Basic character and number utilities -/

/-- Shorthand: the character list of a string literal. -/
def strL (s : String) : List Char := s.data

/-- Decimal digit characters, as an explicit table (used by the model of
Python's decimal formatting `f"\x7bi:d\x7d"`). -/
def dchar (n : Nat) : Char :=
  match n with
  | 0 => '0' | 1 => '1' | 2 => '2' | 3 => '3' | 4 => '4'
  | 5 => '5' | 6 => '6' | 7 => '7' | 8 => '8' | _ => '9'

/-- Decimal digits, fuelled so that the recursion is structural (and so
kernel-computable); `natChars` supplies adequate fuel, and
`natChars_unfold` below recovers the direct recurrence. -/
def natCharsF : Nat → Nat → List Char
  | 0, _ => []
  | f + 1, n =>
    if n < 10 then [dchar n] else natCharsF f (n / 10) ++ [dchar (n % 10)]

/-- Decimal digits of a natural number, most significant first; models
Python's decimal rendering of a non-negative int. -/
def natChars (n : Nat) : List Char := natCharsF (n + 1) n

/-- Python's `f"\x7bi:d\x7d"` for an int: optional minus sign, then digits. -/
def intChars (i : Int) : List Char :=
  if i < 0 then '-' :: natChars i.natAbs else natChars i.natAbs

/-- Is `c` a decimal digit? -/
def isDigitCh (c : Char) : Bool := 48 ≤ c.toNat && c.toNat ≤ 57

/-- Numeric value of a digit character. -/
def digitVal (c : Char) : Nat := c.toNat - 48

/-- Model of Python's `int(str)` on an all-digit string (no sign): `none`
models the `ValueError` that `int` raises on malformed input.  (Python's
`int` also tolerates surrounding whitespace and `_` separators between
digits; those inputs never arise in this development.) -/
def pyParseNat (cs : List Char) : Option Nat :=
  if cs ≠ [] ∧ cs.all isDigitCh then
    some (cs.foldl (fun a c => 10 * a + digitVal c) 0)
  else none

/-- Model of Python's `int(str)`: optional sign, then digits. -/
def pyParseInt (cs : List Char) : Option Int :=
  if cs.head? = some '-' then (pyParseNat cs.tail).map (fun n => -(n : Int))
  else if cs.head? = some '+' then (pyParseNat cs.tail).map (fun n => (n : Int))
  else (pyParseNat cs).map (fun n => (n : Int))

/-- Python's `str.split(d)` for a one-character separator (no quote
awareness). The result is always non-empty. -/
def splitOnChar (d : Char) : List Char → List (List Char)
  | [] => [[]]
  | c :: rest =>
    if c = d then [] :: splitOnChar d rest
    else
      match splitOnChar d rest with
      | [] => [[c]]
      | g :: gs => (c :: g) :: gs

/-- Python's `str.strip(ch)` for a single strip character: remove every
leading and trailing occurrence. -/
def pyStripChar (ch : Char) (cs : List Char) : List Char :=
  ((cs.dropWhile (· = ch)).reverse.dropWhile (· = ch)).reverse

/-- Python's `str.removesuffix(ch)` for a one-character suffix. -/
def removeSuffix1 (cs : List Char) (ch : Char) : List Char :=
  if cs.getLast? = some ch then cs.dropLast else cs

/-! ## Path codec (src/jsonlitedb.py: `_query_tuple2jsonpath`,
`group_ints_with_preceding_string`, `build_index_paths`,
`split_no_double_quotes`, `split_query`) -/

/-- One segment of a logical path: a string key or an integer index.
(The source also rejects any other type with `ValueError`; booleans are
explicitly not integers for grouping purposes and are outside this model.) -/
inductive Seg
  | key (s : List Char)
  | idx (i : Int)
deriving DecidableEq, Repr

/-- Is this segment an integer index? (`isinstance(item, int) and not
isinstance(item, bool)` in the source.) -/
def Seg.isIdx : Seg → Bool
  | .idx _ => true
  | .key _ => false

/-- The grouping recursion, fuelled so that it is structural (and so
kernel-computable): the first element grabs the run of integers that
follows it, and the remainder (which starts with a string, or is empty)
is grouped recursively. -/
def groupIntsF : Nat → List Seg → List (List Seg)
  | 0, _ => []
  | _ + 1, [] => []
  | f + 1, x :: rest =>
    (x :: rest.takeWhile Seg.isIdx) :: groupIntsF f (rest.dropWhile Seg.isIdx)

/-- `group_ints_with_preceding_string` (src/jsonlitedb.py lines
2160-2213): each string starts a new group and collects the integers
that follow it; leading integers form their own group.  (See
`group_ints_unfold` below for the direct recurrence.) -/
def group_ints_with_preceding_string (l : List Seg) : List (List Seg) :=
  groupIntsF (l.length + 1) l

/-- The integer of an index segment, if any. -/
def Seg.idxVal? : Seg → Option Int
  | .idx i => some i
  | .key _ => none

/-- `"".join(f"[\x7bi:d\x7d]" for i in ints)`: bracketed subscripts for the
index segments of a group's tail. -/
def segBrackets (l : List Seg) : List Char :=
  ((l.filterMap Seg.idxVal?).map (fun i => '[' :: (intChars i ++ [']']))).flatten

/-- The raw text Python's f-string would interpolate for a segment. -/
def Seg.raw : Seg → List Char
  | .key s => s
  | .idx i => intChars i

/-- `f'"\x7bskey\x7d"' + "".join(f"[\x7bi:d\x7d]" for i in ints)`: the
rendering of one non-leading group (a key followed by its indices;
grouping guarantees every non-leading group starts with a key). -/
def renderGroup (g : List Seg) : List Char :=
  match g with
  | [] => []
  | s0 :: ints => '"' :: (Seg.raw s0 ++ ['"']) ++ segBrackets ints

/-- Python's `sep.join(parts)` for a one-character separator. -/
def joinSep (sep : Char) : List (List Char) → List Char
  | [] => []
  | [p] => p
  | p :: ps => p ++ sep :: joinSep sep ps

/-- `".".join(newkey)`. -/
def joinDot (parts : List (List Char)) : List Char := joinSep '.' parts

/-- The tuple-key case of `_query_tuple2jsonpath` (src/jsonlitedb.py lines
1886-1900): group the segments, render a leading integer group (if any) as
bracket subscripts on `$`, render every other group as a quoted key plus
subscripts, and join with dots. -/
def jsonpathOfSegs (segs : List Seg) : List Char :=
  match group_ints_with_preceding_string segs with
  | (Seg.idx i :: g0) :: rest =>
    joinDot (('$' :: segBrackets (Seg.idx i :: g0)) :: rest.map renderGroup)
  | groups => joinDot (['$'] :: groups.map renderGroup)

/-- Scan for the closing quote of one regex span `\".*?\"`
(src/jsonlitedb.py line 2269): the non-greedy body up to the next `"`,
or `none` when a newline or the end of the input comes first — `.` does
not match a newline, so a span containing one never closes and the
opening quote matches nothing. -/
def closeQuoteScan : List Char → Option (List Char × List Char)
  | [] => none
  | c :: r =>
    if c = '"' then some ([], r)
    else if c = '\n' then none
    else (closeQuoteScan r).map (fun p => (c :: p.1, p.2))

/-- The splitter of `split_no_double_quotes` (src/jsonlitedb.py lines
2265-2275), fuelled so that the recursion is structural (and so
kernel-computable); `splitNQ_unfold` below recovers the direct
recurrence.  The source replaces each regex-matched `\".*?\"` span with
a fresh random string, splits at the delimiter, and replaces back;
assuming the random strings collide with nothing and contain neither
the delimiter nor a quote (the intent of `randstr`), that equals this
direct scan: a `"` opens a span only when `closeQuoteScan` finds its
closing quote on the same line (the regex match), the whole span passes
into the current part, an unmatched `"` is ordinary text, and the
delimiter splits exactly when it lies outside every matched span. -/
def splitNQF (d : Char) : Nat → List Char → List (List Char)
  | 0, _ => [[]]
  | _ + 1, [] => [[]]
  | f + 1, c :: rest =>
    if c = '"' then
      match closeQuoteScan rest with
      | some (body, after) =>
        match splitNQF d f after with
        | [] => [('"' :: (body ++ ['"']))]
        | g :: gs => (('"' :: (body ++ ['"'])) ++ g) :: gs
      | none =>
        match splitNQF d f rest with
        | [] => [[c]]
        | g :: gs => (c :: g) :: gs
    else if c = d then [] :: splitNQF d f rest
    else
      match splitNQF d f rest with
      | [] => [[c]]
      | g :: gs => (c :: g) :: gs

/-- `split_no_double_quotes(s, delimiter)`. -/
def split_no_double_quotes (s : List Char) (d : Char) : List (List Char) :=
  splitNQF d (s.length + 1) s

/-- Splitter safety of one part, by the same span-matching scan as the
splitter (fuelled; `nqScan_unfold` below recovers the recurrence):
`true` when every `"` opens a span that closes on the same line and no
delimiter occurs outside the matched spans — the condition under which
appending further delimiter-separated text cannot disturb the part. -/
def nqScanF (d : Char) : Nat → List Char → Bool
  | 0, _ => true
  | _ + 1, [] => true
  | f + 1, c :: rest =>
    if c = '"' then
      match closeQuoteScan rest with
      | some p => nqScanF d f p.2
      | none => false
    else if c = d then false
    else nqScanF d f rest

/-- Splitter safety with adequate fuel. -/
def nqScan (d : Char) (s : List Char) : Bool := nqScanF d (s.length + 1) s

/-! ## Errors (src/jsonlitedb.py: the exception classes) -/

/-- The exceptions this embedding distinguishes.  `missingValue`,
`dissallowed` (the source's spelling), `assignedQuery` and `valueError`
are all `ValueError` subclasses in the source; `indexError`, `typeError`
and `keyError` are not. -/
inductive PyErr
  | missingValue
  | dissallowed
  | assignedQuery
  | valueError
  | indexError
  | typeError
  | keyError
deriving DecidableEq, Repr

/-- Whether the exception is (a subclass of) Python's `ValueError`. -/
def PyErr.isValueErrorClass : PyErr → Bool
  | .missingValue => true
  | .dissallowed => true
  | .assignedQuery => true
  | .valueError => true
  | .indexError => false
  | .typeError => false
  | .keyError => false

/-! ## Values, tokens, and the Query object (src/jsonlitedb.py: `Query`) -/

/-- A JSON-serializable Python value as bound into a query.  The compiler
treats bound values opaquely except for the `None` check in `_compare`,
so only the constructors needed to distinguish those cases appear. -/
inductive JVal
  | null
  | bool (b : Bool)
  | int (i : Int)
  | str (s : List Char)
deriving DecidableEq, Repr

/-- `randstr`/`randkey` (src/jsonlitedb.py lines 2278-2307) generate a
random URL-safe base64 body wrapped as `!>>body<<!`.  Randomness is
modelled by a counter-indexed supply: body `n` is the letter `k` followed
by the decimal digits of `n` — distinct bodies for distinct counters,
drawn from the same alphabet (letters and digits, so never `<`, `>`, `!`
or a newline). -/
def tokenBody (n : Nat) : List Char := 'k' :: natChars n

/-- The modelled `randkey()`: token number `n` of the supply. -/
def randkey (n : Nat) : List Char :=
  '!' :: '>' :: '>' :: (tokenBody n ++ ['<', '<', '!'])

/-- `sqlite_quote` (src/jsonlitedb.py lines 2216-2262) delegates literal
quoting to the engine via a trace callback; the engine's quoting of a
string is modelled directly: wrap in single quotes, doubling every
embedded single quote. -/
def doubleSq : List Char → List Char
  | [] => []
  | c :: r => if c = '\'' then '\'' :: '\'' :: doubleSq r else c :: doubleSq r

/-- The modelled `sqlite_quote(text)` for a string argument. -/
def sqlite_quote (s : List Char) : List Char := '\'' :: (doubleSq s ++ ['\''])

/-- Python-dict insertion into an insertion-ordered association list:
update in place if the key exists, else append (`d[k] = v`). -/
def pyDictInsert (d : List (List Char × JVal)) (k : List Char) (v : JVal) :
    List (List Char × JVal) :=
  if d.any (fun p => p.1 = k) then
    d.map (fun p => if p.1 = k then (k, v) else p)
  else d ++ [(k, v)]

/-- Python's `d1 |= d2` / `d1 | d2` on dicts. -/
def pyDictMerge (d1 d2 : List (List Char × JVal)) : List (List Char × JVal) :=
  d2.foldl (fun acc p => pyDictInsert acc p.1 p.2) d1

/-- Python's `d[k]` lookup. -/
def pyLookup (d : List (List Char × JVal)) (k : List Char) : Option JVal :=
  (d.find? (fun p => p.1 = k)).map (fun p => p.2)

/-- The state of one `Query` object: `_key` (accumulated segments),
`_qdict` (token-to-value map), `_query` (the filter text once set) and
`_asc_or_desc` (the order hint).  The source also overwrites `_key` with
`True` in `_from_equality` purely to fool `__str__`; that bookkeeping
value is not observable through the operations modelled here and `_key`
is left empty there. -/
structure QState where
  key : List Seg
  qdict : List (List Char × JVal)
  query : Option (List Char)
  ascOrDesc : Option (List Char)
deriving DecidableEq, Repr

/-- `Query()`. -/
def Query.init : QState := ⟨[], [], none, none⟩

/-- Python truthiness of the `_query` attribute (`None` and the empty
string are falsy). -/
def pyTruthy : Option (List Char) → Bool
  | none => false
  | some s => !s.isEmpty

/-- Python's f-string rendering of `_query` (`None` prints as `None`). -/
def pyFormatOptStr : Option (List Char) → List Char
  | none => strL "None"
  | some s => s

/-- The comparison operators of the predicate builder (`partialmethod`s of
`_compare`, src/jsonlitedb.py lines 1789-1798). -/
inductive CmpSym
  | lt | le | eq | ne | gt | ge | like | glob | regexp
deriving DecidableEq, Repr

/-- The SQL operator text interpolated for each comparison. -/
def CmpSym.chars : CmpSym → List Char
  | .lt => strL "<"
  | .le => strL "<="
  | .eq => strL "="
  | .ne => strL "!="
  | .gt => strL ">"
  | .ge => strL ">="
  | .like => strL "LIKE"
  | .glob => strL "GLOB"
  | .regexp => strL "REGEXP"

/-- `sym in {"=", "!="}`. -/
def CmpSym.isEqNe : CmpSym → Bool
  | .eq => true
  | .ne => true
  | _ => false

/-- `Query.__getattr__` (src/jsonlitedb.py lines 1743-1745): append the
attribute name to `_key` (and return the same object — see the heap
model below for the aliasing claims). -/
def q_getattr (q : QState) (a : List Char) : QState :=
  { q with key := q.key ++ [Seg.key a] }

/-- The argument of `Query.__getitem__`: a single segment, or a
tuple/list of segments. -/
inductive ItemArg
  | one (s : Seg)
  | many (l : List Seg)

/-- `Query.__getitem__` (src/jsonlitedb.py lines 1747-1752): extend
`_key` with the item or items. -/
def q_getitem (q : QState) (it : ItemArg) : QState :=
  match it with
  | .one s => { q with key := q.key ++ [s] }
  | .many l => { q with key := q.key ++ l }

/-- The filter text `( JSON_EXTRACT(data, 'path') sym token )` built by
`_compare` when a placeholder is minted. -/
def cmpText (k : List Char) (sym : CmpSym) (n : Nat) : List Char :=
  strL "( JSON_EXTRACT(data, " ++ sqlite_quote k ++ strL ") " ++
    sym.chars ++ strL " " ++ randkey n ++ strL " )"

/-- The filter text `( JSON_EXTRACT(data, 'path') IS [NOT] NULL )` built
by `_compare`'s null special case (note the doubled space for `=`, as in
the source's f-string). -/
def nullCmpText (k : List Char) (sym : CmpSym) : List Char :=
  strL "( JSON_EXTRACT(data, " ++ sqlite_quote k ++ strL ") IS " ++
    (if sym = .ne then strL "NOT" else []) ++ strL " NULL )"

/-- `Query._compare` (src/jsonlitedb.py lines 1766-1787): reject an
already-set query; canonicalize the accumulated key; special-case a
`None` value with `=`/`!=` into an `IS [NOT] NULL` form with no
placeholder; otherwise mint placeholder `n`, record its value, and emit
the comparison text. -/
def q_compare (q : QState) (sym : CmpSym) (v : JVal) (n : Nat) :
    Except PyErr QState :=
  if pyTruthy q.query then .error .dissallowed
  else
    let k := jsonpathOfSegs q.key
    if v = JVal.null ∧ sym.isEqNe then
      .ok { q with query := some (nullCmpText k sym) }
    else
      .ok { q with
            qdict := pyDictInsert q.qdict (randkey n) v,
            query := some (cmpText k sym n) }

/-- `Query._from_equality` (src/jsonlitedb.py lines 1725-1736): build a
fresh set query for one canonical-path/value pair.  Note there is no
null special case here: the value is always bound to a minted
placeholder, even when it is `None`. -/
def q_from_equality (k : List Char) (v : JVal) (n : Nat) : QState :=
  { key := [],
    qdict := [(randkey n, v)],
    query := some (strL "( JSON_EXTRACT(data, " ++ sqlite_quote k ++
      strL ") = " ++ randkey n ++ strL " )"),
    ascOrDesc := none }

/-- `Query._logic` (src/jsonlitedb.py lines 1801-1807): both operands
must be set; merge the token maps (`|=`) and combine the texts. -/
def q_logic (self other : QState) (comb : List Char) : Except PyErr QState :=
  if !pyTruthy self.query || !pyTruthy other.query then .error .missingValue
  else
    .ok { self with
          qdict := pyDictMerge self.qdict other.qdict,
          query := some (strL "( " ++ pyFormatOptStr self.query ++ strL " " ++
            comb ++ strL " " ++ pyFormatOptStr other.query ++ strL " )") }

/-- `Query.__invert__` (src/jsonlitedb.py lines 1812-1814): wrap the
current text as `( NOT ... )`.  The source performs no set-state check
here (unlike `_logic` and `_compare`): on an unset query the f-string
renders `None` and the result is the text `( NOT None )`, not an
exception. -/
def q_invert (q : QState) : QState :=
  { q with query := some (strL "( NOT " ++ pyFormatOptStr q.query ++ strL " )") }

/-- `Query.__neg__` (order hint DESC). -/
def q_neg (q : QState) : QState := { q with ascOrDesc := some (strL "DESC") }

/-- `Query.__pos__` (order hint ASC). -/
def q_pos (q : QState) : QState := { q with ascOrDesc := some (strL "ASC") }

/-! ## Path arguments and `build_index_paths` / `split_query` -/

/-- One argument as accepted by `build_index_paths` and `split_query`: a
string, an int, a tuple of segments, a `Query` object, or a dict (which
`build_index_paths` rejects). -/
inductive PathArg
  | str (s : List Char)
  | int (i : Int)
  | tup (segs : List Seg)
  | query (q : QState)
  | dict

/-- Python truthiness of a path argument (`""`, `()` and `0` are falsy;
`Query` objects define no `__bool__`/`__len__` and are always truthy;
the dict arguments that reach `split_query` in this model are taken
non-empty, hence truthy). -/
def PathArg.falsy : PathArg → Bool
  | .str s => s.isEmpty
  | .tup l => l.isEmpty
  | .int i => i = 0
  | .query _ => false
  | .dict => false

/-- The single-key normalization performed by `_query_tuple2jsonpath`
(src/jsonlitedb.py lines 1873-1900) combined with `build_index_paths`'s
argument handling (lines 1930-1943): dicts are rejected, a set `Query`
is rejected, an unset `Query` contributes its accumulated key tuple; a
string starting with `$` passes through, any other string is quoted as
one key; an int becomes a single bracket subscript; a tuple is encoded
by `jsonpathOfSegs`. -/
def build_index_path1 (a : PathArg) : Except PyErr (List Char) :=
  match a with
  | .dict => .error .assignedQuery
  | .query qs =>
    if pyTruthy qs.query then .error .assignedQuery
    else .ok (jsonpathOfSegs qs.key)
  | .str s =>
    .ok (if s.head? = some '$' then s else strL "$.\"" ++ s ++ ['"'])
  | .int i => .ok ('$' :: '[' :: (intChars i ++ [']']))
  | .tup segs => .ok (jsonpathOfSegs segs)

/-- `build_index_paths(*args)` (src/jsonlitedb.py lines 1909-1947). -/
def build_index_paths (args : List PathArg) : Except PyErr (List (List Char)) :=
  args.mapM build_index_path1

/-- The per-dot-part parsing loop of `split_query` (src/jsonlitedb.py
lines 2030-2040): split the part at `[`, strip quotes from the key
chunk, and parse each remaining chunk (its `]` suffix removed) as an
integer index. -/
def parseItem (item : List Char) : Except PyErr (List Seg) :=
  match splitOnChar '[' item with
  | [] => .ok []
  | h :: ixs => do
    let segs ← ixs.mapM (fun ix =>
      match pyParseInt (removeSuffix1 ix ']') with
      | some i => Except.ok (Seg.idx i)
      | none => Except.error PyErr.valueError)
    .ok (Seg.key (pyStripChar '"' h) :: segs)

/-- `split_query(path)` (src/jsonlitedb.py lines 2014-2042): falsy input
yields the empty tuple; otherwise re-normalize through
`build_index_paths`, split at top-level dots, read a leading `$[i]`
bracket group from the first part (`int(path[0][2:-1])`), and parse the
remaining parts.  `Except.error` models the `ValueError` that Python's
`int()` raises. -/
def split_query (p : PathArg) : Except PyErr (List Seg) :=
  if p.falsy then .ok []
  else do
    let path ← build_index_path1 p
    match split_no_double_quotes path '.' with
    | [] => .ok []
    | p0 :: rest => do
      let lead ←
        (if p0.take 2 = ['$', '['] then
          match pyParseInt ((p0.drop 2).dropLast) with
          | some i => Except.ok [Seg.idx i]
          | none => Except.error PyErr.valueError
        else Except.ok ([] : List Seg))
      let segs ← rest.mapM parseItem
      .ok (lead ++ segs.flatten)

/-! ## Table-name sanitization (src/jsonlitedb.py line 97) -/

/-- Model of Python's `str.isalnum` used on the table name.  Python's
predicate is Unicode-aware; the ASCII fragment modelled here agrees with
it on ASCII input, and no theorem below depends on which extension is
chosen. -/
def pyIsAlnum (c : Char) : Bool := c.isAlphanum

/-- `"".join(c for c in table if c == "_" or c.isalnum())`
(src/jsonlitedb.py line 97): the table name actually used in SQL. -/
def table_name (t : List Char) : List Char :=
  t.filter (fun c => c = '_' || pyIsAlnum c)

/-! ## Heap model of Query mutation (for the aliasing claims)

Python `Query` methods mutate `self` and return `self`.  The heap model
makes that observable: a heap is a list of `QState`s, a reference is an
index, and each operation applies the corresponding pure transformer at
the receiver's cell and returns the reference it hands back. -/

/-- A heap of `Query` objects plus the token-supply counter. -/
structure QHeap where
  cells : List QState
  ctr : Nat
deriving Repr

/-- The object a reference designates (`Query.init` as the junk value for
a dangling reference; the theorems only use valid references). -/
def QHeap.get (h : QHeap) (r : Nat) : QState := h.cells.getD r Query.init

/-- Overwrite the cell of reference `r` (in-place mutation). -/
def QHeap.set (h : QHeap) (r : Nat) (q : QState) : QHeap :=
  { h with cells := h.cells.set r q }

/-- `Query.__getattr__` on the heap: mutate the receiver, return it. -/
def h_getattr (h : QHeap) (r : Nat) (a : List Char) : QHeap × Nat :=
  (h.set r (q_getattr (h.get r) a), r)

/-- `Query.__getitem__` on the heap: mutate the receiver, return it. -/
def h_getitem (h : QHeap) (r : Nat) (it : ItemArg) : QHeap × Nat :=
  (h.set r (q_getitem (h.get r) it), r)

/-- `Query._compare` on the heap: mint the next token of the supply,
mutate the receiver, return it. -/
def h_compare (h : QHeap) (r : Nat) (sym : CmpSym) (v : JVal) :
    Except PyErr (QHeap × Nat) := do
  let q ← q_compare (h.get r) sym v h.ctr
  .ok ({ h.set r q with ctr := h.ctr + 1 }, r)

/-- `Query._logic` (`&`/`|`) on the heap: mutate the left receiver with
the combined state, return the left receiver. -/
def h_logic (h : QHeap) (r₁ r₂ : Nat) (comb : List Char) :
    Except PyErr (QHeap × Nat) := do
  let q ← q_logic (h.get r₁) (h.get r₂) comb
  .ok (h.set r₁ q, r₁)

/-- `Query.__invert__` on the heap. -/
def h_invert (h : QHeap) (r : Nat) : QHeap × Nat :=
  (h.set r (q_invert (h.get r)), r)

/-! ## Point lookup by rowid (src/jsonlitedb.py: `get_by_rowid`,
`__getitem__`) -/

/-- A Python value as returned by the document access layer.  `dbdict`
and `dblist` model the source's `DBDict`/`DBList` (a dict or list
carrying its `rowid` tag); `pynone` is Python's `None`. -/
inductive PyVal
  | pynone
  | pybool (b : Bool)
  | pyint (i : Int)
  | pystr (s : List Char)
  | pylist (l : List PyVal)
  | pydict (d : List (List Char × PyVal))
  | dblist (l : List PyVal) (rowid : Nat)
  | dbdict (d : List (List Char × PyVal)) (rowid : Nat)

/-- Python's `item is None` identity test. -/
def PyVal.isNone : PyVal → Bool
  | .pynone => true
  | _ => false

/-- The stored table: rows of `(rowid, data)` with `data` the stored JSON
text; `SELECT ... WHERE rowid = ?` with `fetchone` is a first-match
lookup (rowids are unique in the engine). -/
def fetchRow (table : List (Nat × List Char)) (rid : Nat) :
    Option (Nat × List Char) :=
  table.find? (fun row => row.1 = rid)

/-- A fragment of the engine-delegated JSON decode (`json.loads`),
sufficient for the theorems below, which only ever decode the stored
text `null` (Python's `None`): any other text is treated as opaque. -/
def loadsNullFragment (s : List Char) : PyVal :=
  if s = strL "null" then .pynone else .pystr s

/-- `JSONLiteDB.get_by_rowid` (src/jsonlitedb.py lines 861-887),
parameterized by the JSON decoder: no row gives Python's implicit
`return` (`None`); `_load=False` gives the raw text; otherwise the
decoded value, tagged with the rowid when it is a dict or a list. -/
def get_by_rowid (loads : List Char → PyVal) (table : List (Nat × List Char))
    (rid : Nat) (load : Bool) : PyVal :=
  match fetchRow table rid with
  | none => .pynone
  | some (rowid, data) =>
    if !load then .pystr data
    else
      match loads data with
      | .pydict d => .dbdict d rowid
      | .pylist l => .dblist l rowid
      | v => v

/-- `JSONLiteDB.__getitem__` (src/jsonlitedb.py lines 929-934): delegate
to `get_by_rowid` and raise `IndexError` when the result is `None`. -/
def getitem_rowid (loads : List Char → PyVal) (table : List (Nat × List Char))
    (rid : Nat) : Except PyErr PyVal :=
  let item := get_by_rowid loads table rid true
  if item.isNone then .error .indexError else .ok item

/-! ## Order-by compiler (src/jsonlitedb.py: `build_orderby_pairs`) -/

/-- One item of an order specification: a string, a tuple of segments, or
a `Query` object (any other type raises `ValueError`). -/
inductive OrderItem
  | str (s : List Char)
  | tup (segs : List Seg)
  | query (q : QState)
  | other

/-- The `orderby` argument: `None`, a single item, or a list of items. -/
inductive OrderBy
  | none
  | single (it : OrderItem)
  | list (l : List OrderItem)

/-- Python truthiness of the `orderby` argument (`if not orderby`):
`None`, `""`, `()` and `[]` are falsy; a `Query` object is truthy. -/
def OrderBy.falsy : OrderBy → Bool
  | .none => true
  | .single (.str s) => s.isEmpty
  | .single (.tup l) => l.isEmpty
  | .single _ => false
  | .list l => l.isEmpty

/-- The item list the loop runs over (`if not isinstance(orderby, list):
orderby = [orderby]`). -/
def OrderBy.items : OrderBy → List OrderItem
  | .none => [.other]
  | .single it => [it]
  | .list l => l

/-- The per-item body of `build_orderby_pairs` (src/jsonlitedb.py lines
1961-2010): a set `Query` raises; an unset `Query` contributes its order
hint and key tuple; a string takes an optional `-`/`+` prefix and is
quoted unless it starts with `$`; a tuple must be non-empty, takes an
optional prefix on its first element when that is a string, and is then
encoded exactly as `_query_tuple2jsonpath` encodes a tuple key (the
source inlines the same grouping and rendering, reused here as
`jsonpathOfSegs`). -/
def orderby_pair1 (item : OrderItem) : Except PyErr (List Char × List Char) := do
  let ascDefault := strL "ASC"
  let (order₀, item) ←
    match item with
    | .query qs =>
      if pyTruthy qs.query then Except.error PyErr.assignedQuery
      else Except.ok (qs.ascOrDesc.getD ascDefault, OrderItem.tup qs.key)
    | it => Except.ok (ascDefault, it)
  match item with
  | .str s =>
    if s.head? = some '-' then .ok (if (s.drop 1).head? = some '$' then s.drop 1
        else strL "$.\"" ++ s.drop 1 ++ ['"'], strL "DESC")
    else
      let s := if s.head? = some '+' then s.drop 1 else s
      .ok (if s.head? = some '$' then s else strL "$.\"" ++ s ++ ['"'], order₀)
  | .tup segs =>
    if segs.isEmpty then .error .valueError
    else
      match segs with
      | Seg.key s :: restSegs =>
        if s.head? = some '-' then
          .ok (jsonpathOfSegs (Seg.key (s.drop 1) :: restSegs), strL "DESC")
        else if s.head? = some '+' then
          .ok (jsonpathOfSegs (Seg.key (s.drop 1) :: restSegs), order₀)
        else .ok (jsonpathOfSegs segs, order₀)
      | _ => .ok (jsonpathOfSegs segs, order₀)
  | _ => .error .valueError

/-- `build_orderby_pairs(orderby)` (src/jsonlitedb.py lines 1950-2011).
The source returns the string `""` for falsy input and otherwise a list
of `(path, order)` pairs; the falsy case is modelled as the empty pair
list (the callers iterate over the result, for which the two are
indistinguishable). -/
def build_orderby_pairs (orderby : OrderBy) : Except PyErr (List (List Char × List Char)) :=
  if orderby.falsy then .ok []
  else orderby.items.mapM orderby_pair1

/-! ## The placeholder scanner of `_query2sql` (src/jsonlitedb.py lines
1452-1459)

The source extracts tokens with `re.findall(r"(!>>.*?<<!)", text)` and
substitutes them with `re.sub(..., "?", text)`.  Both regex passes are
modelled by one left-to-right scan with the same semantics: at each
position where `!>>` starts, the shortest continuation up to `<<!` (with
no newline in between, since `.` does not match a newline) is a match,
substituted by `?`; on no such continuation the scan advances one
character. -/

/-- Scan for the non-greedy closer `<<!`: returns the matched body and
the remainder after the closer, or `none` when no closer is reachable
(end of input or a newline, which `.` does not match). -/
def closeScan : List Char → Option (List Char × List Char)
  | [] => none
  | c :: r =>
    if c = '<' ∧ r.take 2 = ['<', '!'] then some ([], r.drop 2)
    else if c = '\n' then none
    else (closeScan r).map (fun p => (c :: p.1, p.2))

/-- The scan-and-substitute recursion, fuelled so that it is structural
(and so kernel-computable); `scanSub` supplies adequate fuel, and
`scanSub_unfold` below recovers the direct recurrence. -/
def scanSubF : Nat → List Char → List Char × List (List Char)
  | 0, _ => ([], [])
  | _ + 1, [] => ([], [])
  | f + 1, c :: rest =>
    if c = '!' ∧ rest.take 2 = ['>', '>'] then
      match closeScan (rest.drop 2) with
      | some (body, after) =>
        let r := scanSubF f after
        ('?' :: r.1, ('!' :: '>' :: '>' :: (body ++ ['<', '<', '!'])) :: r.2)
      | none =>
        let r := scanSubF f rest
        ('!' :: r.1, r.2)
    else
      let r := scanSubF f rest
      (c :: r.1, r.2)

/-- The combined model of `re.findall(r"(!>>.*?<<!)", s)` and
`re.sub(r"(!>>.*?<<!)", "?", s)`: first component the substituted text,
second the matched tokens in occurrence order (each including its
delimiters, as the source's capture group does). -/
def scanSub (cs : List Char) : List Char × List (List Char) :=
  scanSubF (cs.length + 1) cs

/-! ## The placeholder-counting automaton

SQLite reads a `?` inside a single-quoted string literal as literal
text, not as a bind parameter (an embedded quote is escaped by
doubling).  `cpCount`/`cpState` run the corresponding two-state scan:
`inLit` toggles at each single quote (the doubling escape is two
toggles, which preserves the count), and a `?` counts only outside a
literal. -/

/-- Number of bind-parameter `?`s in `cs`, starting in literal state `b`. -/
def cpCount : List Char → Bool → Nat
  | [], _ => 0
  | c :: r, inLit =>
    if c = '\'' then cpCount r (!inLit)
    else if c = '?' ∧ inLit = false then 1 + cpCount r inLit
    else cpCount r inLit

/-- Literal state after scanning `cs` from state `b`. -/
def cpState : List Char → Bool → Bool
  | [], b => b
  | c :: r, b => cpState r (if c = '\'' then !b else b)

/-- `countParams cs`: the number of bind parameters SQLite reads in `cs`. -/
def countParams (cs : List Char) : Nat := cpCount cs false

/-! ## Compiled-filter chunks

A filter text built by the `Query` operations is an interleaving of
literal pieces and minted placeholder tokens.  `Chunk` records that
interleaving; the compiler theorems show each built `_query` text is the
rendering of such a chunk list and read the compilation invariants off
it. -/

/-- One chunk: a literal piece of SQL text, or minted token `n` standing
for bound value `v`. -/
inductive Chunk
  | lit (s : List Char)
  | tok (n : Nat) (v : JVal)
deriving DecidableEq, Repr

/-- The flat filter text of a chunk list (tokens rendered as `!>>…<<!`). -/
def renderC : List Chunk → List Char
  | [] => []
  | .lit s :: r => s ++ renderC r
  | .tok n _ :: r => randkey n ++ renderC r

/-- The substituted text: tokens rendered as `?`. -/
def renderSubC : List Chunk → List Char
  | [] => []
  | .lit s :: r => s ++ renderSubC r
  | .tok _ _ :: r => '?' :: renderSubC r

/-- The tokens of a chunk list, in occurrence order. -/
def chunkToks : List Chunk → List (List Char)
  | [] => []
  | .lit _ :: r => chunkToks r
  | .tok n _ :: r => randkey n :: chunkToks r

/-- The bound values of a chunk list, in occurrence order. -/
def chunkVals : List Chunk → List JVal
  | [] => []
  | .lit _ :: r => chunkVals r
  | .tok _ v :: r => v :: chunkVals r

/-- A literal piece is clean when every `!` in it is followed, within the
piece, by at least two characters that are not `>>`: then no `!>>`
opener can start inside the piece or straddle its end, whatever text
follows. -/
def cleanLit : List Char → Bool
  | [] => true
  | c :: r =>
    (if c = '!' then decide (2 ≤ r.length) && !(decide (r.take 2 = ['>', '>'])) else true)
      && cleanLit r

/-! ## The query compiler (src/jsonlitedb.py: `_query2sql`) -/

/-- A user-composed predicate expression: the tree of builder operations
that produced a (set) `Query` argument of `query()`.  `cmp` is a key
chain followed by one comparison operator; `qand`/`qor`/`qnot` are the
boolean combinators. -/
inductive QExpr
  | cmp (path : List Seg) (sym : CmpSym) (v : JVal)
  | qand (a b : QExpr)
  | qor (a b : QExpr)
  | qnot (a : QExpr)

/-- Replay a `QExpr` through the real builder operations, threading the
token-supply counter: `Query()[path] sym v`, `a & b`, `a | b`, `~a`. -/
def buildQ : QExpr → Nat → Except PyErr (QState × Nat)
  | .cmp path sym v, n => do
    let q ← q_compare (q_getitem Query.init (.many path)) sym v n
    .ok (q, n + 1)
  | .qand a b, n => do
    let (qa, n₁) ← buildQ a n
    let (qb, n₂) ← buildQ b n₁
    let q ← q_logic qa qb (strL "AND")
    .ok (q, n₂)
  | .qor a b, n => do
    let (qa, n₁) ← buildQ a n
    let (qb, n₂) ← buildQ b n₁
    let q ← q_logic qa qb (strL "OR")
    .ok (q, n₂)
  | .qnot a, n => do
    let (qa, n₁) ← buildQ a n
    .ok (q_invert qa, n₁)

/-- The equality-folding loop of `_query2sql` (src/jsonlitedb.py lines
1433-1438): fold `Query._from_equality` over the canonical equality
pairs, combining with `&`. -/
def foldEqualities (eqs : List (List Char × JVal)) (acc : Option QState)
    (n : Nat) : Except PyErr (Option QState × Nat) :=
  match eqs with
  | [] => .ok (acc, n)
  | (k, v) :: rest =>
    match acc with
    | none => foldEqualities rest (some (q_from_equality k v n)) (n + 1)
    | some qo => do
      let q ← q_logic qo (q_from_equality k v n) (strL "AND")
      foldEqualities rest (some q) (n + 1)

/-- The argument-folding loop of `_query2sql` (lines 1441-1445): AND the
positional `Query` arguments onto the accumulator, building each from
its expression tree. -/
def foldQArgs (qargs : List QExpr) (acc : Option QState) (n : Nat) :
    Except PyErr (Option QState × Nat) :=
  match qargs with
  | [] => .ok (acc, n)
  | e :: rest => do
    let (qe, n₁) ← buildQ e n
    match acc with
    | none => foldQArgs rest (some qe) n₁
    | some qo => do
      let q ← q_logic qo qe (strL "AND")
      foldQArgs rest (some q) n₁

/-- Python-dict deduplication of the equality pairs: `_query_tuple2jsonpath`
returns a dict, so a later pair with the same canonical key overwrites the
earlier one in place. -/
def pyDictOfPairs (eqs : List (List Char × JVal)) : List (List Char × JVal) :=
  eqs.foldl (fun acc p => pyDictInsert acc p.1 p.2) []

/-- `JSONLiteDB._query2sql` (src/jsonlitedb.py lines 1418-1459),
parameterized by the canonical equality pairs (the output of
`_query_tuple2jsonpath` on the dict/keyword arguments, before dict
deduplication) and the expression trees of the positional `Query`
arguments, threading the token supply from `n`: fold equalities, AND on
the query arguments, return the tautology `1 = 1` when nothing was
given, reject an unset result, then extract the tokens in occurrence
order (`re.findall`), look each up (a missing key is Python's
`KeyError`) and substitute `?` (`re.sub`). -/
def query2sql (eqs : List (List Char × JVal)) (qargs : List QExpr) (n : Nat) :
    Except PyErr (List Char × List JVal) := do
  let (qobj, n₁) ← foldEqualities (pyDictOfPairs eqs) none n
  let (qobj, _) ← foldQArgs qargs qobj n₁
  match qobj with
  | none => .ok (strL "1 = 1", [])
  | some q =>
    if !pyTruthy q.query then .error .missingValue
    else
      let scanned := scanSub (pyFormatOptStr q.query)
      let vals ← scanned.2.mapM (fun t =>
        match pyLookup q.qdict t with
        | some v => Except.ok v
        | none => Except.error PyErr.keyError)
      .ok (scanned.1, vals)

/-! ## MD5 and the derived index name (src/jsonlitedb.py: `create_index`
lines 1236-1256, `drop_index` lines 1288-1330)

Both methods derive the index name as
`f"ix_(table)_" + hashlib.md5("=".join(paths).encode()).hexdigest()[:8]`
plus `"_UNIQUE"` when `unique` is requested.  MD5 is embedded as a pure
function on byte lists (naturals below 256), 32-bit words carried as
naturals reduced modulo `2^32`. -/

/-- Reduce modulo `2^32`. -/
def m32 (n : Nat) : Nat := n % 4294967296

/-- Rotate a 32-bit word left by `s` bits. -/
def rotl32 (x s : Nat) : Nat :=
  let y := m32 x
  m32 (y * 2 ^ s) + y / 2 ^ (32 - s)

/-- Bitwise complement of a 32-bit word. -/
def bnot32 (x : Nat) : Nat := 4294967295 - m32 x

/-- The per-round shift amounts of MD5. -/
def md5S : List Nat :=
  [7, 12, 17, 22, 7, 12, 17, 22, 7, 12, 17, 22, 7, 12, 17, 22,
   5, 9, 14, 20, 5, 9, 14, 20, 5, 9, 14, 20, 5, 9, 14, 20,
   4, 11, 16, 23, 4, 11, 16, 23, 4, 11, 16, 23, 4, 11, 16, 23,
   6, 10, 15, 21, 6, 10, 15, 21, 6, 10, 15, 21, 6, 10, 15, 21]

/-- The sine-derived round constants of MD5. -/
def md5K : List Nat :=
  [0xd76aa478, 0xe8c7b756, 0x242070db, 0xc1bdceee,
   0xf57c0faf, 0x4787c62a, 0xa8304613, 0xfd469501,
   0x698098d8, 0x8b44f7af, 0xffff5bb1, 0x895cd7be,
   0x6b901122, 0xfd987193, 0xa679438e, 0x49b40821,
   0xf61e2562, 0xc040b340, 0x265e5a51, 0xe9b6c7aa,
   0xd62f105d, 0x02441453, 0xd8a1e681, 0xe7d3fbc8,
   0x21e1cde6, 0xc33707d6, 0xf4d50d87, 0x455a14ed,
   0xa9e3e905, 0xfcefa3f8, 0x676f02d9, 0x8d2a4c8a,
   0xfffa3942, 0x8771f681, 0x6d9d6122, 0xfde5380c,
   0xa4beea44, 0x4bdecfa9, 0xf6bb4b60, 0xbebfbc70,
   0x289b7ec6, 0xeaa127fa, 0xd4ef3085, 0x04881d05,
   0xd9d4d039, 0xe6db99e5, 0x1fa27cf8, 0xc4ac5665,
   0xf4292244, 0x432aff97, 0xab9423a7, 0xfc93a039,
   0x655b59c3, 0x8f0ccc92, 0xffeff47d, 0x85845dd1,
   0x6fa87e4f, 0xfe2ce6e0, 0xa3014314, 0x4e0811a1,
   0xf7537e82, 0xbd3af235, 0x2ad7d2bb, 0xeb86d391]

/-- One MD5 round: `i` is the round number, `M` the sixteen message
words of the block, `(a, b, c, d)` the running state. -/
def md5Round (M : List Nat) (st : Nat × Nat × Nat × Nat) (i : Nat) :
    Nat × Nat × Nat × Nat :=
  let (a, b, c, d) := st
  let (f, g) :=
    if i < 16 then ((b &&& c) ||| (bnot32 b &&& d), i)
    else if i < 32 then ((d &&& b) ||| (bnot32 d &&& c), (5 * i + 1) % 16)
    else if i < 48 then (b ^^^ c ^^^ d, (3 * i + 5) % 16)
    else (c ^^^ (b ||| bnot32 d), (7 * i) % 16)
  let f := m32 (f + a + md5K.getD i 0 + M.getD g 0)
  (d, m32 (b + rotl32 f (md5S.getD i 0)), b, c)

/-- Split the 64 bytes of one block into sixteen little-endian words. -/
def toWordsLE : List Nat → List Nat
  | b0 :: b1 :: b2 :: b3 :: rest =>
    (b0 + 256 * b1 + 65536 * b2 + 16777216 * b3) :: toWordsLE rest
  | _ => []

/-- Process one 64-byte block. -/
def md5Compress (st : Nat × Nat × Nat × Nat) (block : List Nat) :
    Nat × Nat × Nat × Nat :=
  let M := toWordsLE block
  let (a, b, c, d) := (List.range 64).foldl (md5Round M) st
  let (a0, b0, c0, d0) := st
  (m32 (a0 + a), m32 (b0 + b), m32 (c0 + c), m32 (d0 + d))

/-- MD5 padding: append `0x80`, zero bytes to 56 mod 64, and the bit
length as eight little-endian bytes. -/
def md5Pad (msg : List Nat) : List Nat :=
  let z := (120 - (msg.length + 1) % 64) % 64
  let bitlen := (8 * msg.length) % 18446744073709551616
  msg ++ 0x80 :: List.replicate z 0 ++
    ((List.range 8).map (fun j => bitlen / 256 ^ j % 256))

/-- The block-splitting recursion, fuelled so that it is structural. -/
def toBlocksF : Nat → List Nat → List (List Nat)
  | 0, cs => [cs]
  | f + 1, cs =>
    if cs.length ≤ 64 then [cs] else cs.take 64 :: toBlocksF f (cs.drop 64)

/-- Split a padded message into 64-byte blocks. -/
def toBlocks (cs : List Nat) : List (List Nat) := toBlocksF (cs.length + 1) cs

/-- Four little-endian bytes of a 32-bit word. -/
def wordBytesLE (w : Nat) : List Nat :=
  [w % 256, w / 256 % 256, w / 65536 % 256, w / 16777216 % 256]

/-- The sixteen digest bytes of `hashlib.md5(msg).digest()`. -/
def md5Bytes (msg : List Nat) : List Nat :=
  let st := (toBlocks (md5Pad msg)).foldl md5Compress
    (0x67452301, 0xefcdab89, 0x98badcfe, 0x10325476)
  wordBytesLE st.1 ++ wordBytesLE st.2.1 ++ wordBytesLE st.2.2.1 ++
    wordBytesLE st.2.2.2

/-- Lowercase hexadecimal digit characters. -/
def hexChar (n : Nat) : Char :=
  match n with
  | 0 => '0' | 1 => '1' | 2 => '2' | 3 => '3' | 4 => '4' | 5 => '5'
  | 6 => '6' | 7 => '7' | 8 => '8' | 9 => '9' | 10 => 'a' | 11 => 'b'
  | 12 => 'c' | 13 => 'd' | 14 => 'e' | _ => 'f'

/-- `hashlib.md5(msg).hexdigest()` as characters. -/
def md5Hex (msg : List Nat) : List Char :=
  ((md5Bytes msg).map (fun b => [hexChar (b / 16), hexChar (b % 16)])).flatten

/-- Model of `str.encode()` (UTF-8) for the ASCII canonical paths this
development hashes: the code point of each character. -/
def asciiBytes (cs : List Char) : List Nat := cs.map Char.toNat

/-- `"=".join(paths)`. -/
def joinEq (paths : List (List Char)) : List Char := joinSep '=' paths

/-- The index name derived by `JSONLiteDB.create_index` (src/jsonlitedb.py
lines 1238-1242): `ix_` + table + `_` + the first eight hex digits of the
MD5 of the `=`-joined canonical paths, in the order given (the paths are
not sorted), plus `_UNIQUE` when `unique` is set. -/
def create_index_name (table : List Char) (paths : List (List Char))
    (unique : Bool) : List Char :=
  strL "ix_" ++ table ++ ['_'] ++ (md5Hex (asciiBytes (joinEq paths))).take 8 ++
    (if unique then strL "_UNIQUE" else [])

/-- The index name derived by `JSONLiteDB.drop_index` (src/jsonlitedb.py
lines 1325-1329), duplicated in the source with the same two lines as
`create_index`. -/
def drop_index_name (table : List Char) (paths : List (List Char))
    (unique : Bool) : List Char :=
  strL "ix_" ++ table ++ ['_'] ++ (md5Hex (asciiBytes (joinEq paths))).take 8 ++
    (if unique then strL "_UNIQUE" else [])

/-! ## Predicates used by the theorems -/

/-- The character restriction of the round-trip on one segment: a key
may not contain a double quote or an opening bracket (characters the
decoder cannot separate from its own markup) nor a newline (the quoted
span containing one is never matched by the splitter's regex `\".*?\"`,
since `.` does not match a newline, so the structural dots around it go
unprotected). -/
def segCharsOK : Seg → Bool
  | .key s => decide (¬ '"' ∈ s) && decide (¬ '[' ∈ s) && decide (¬ '\n' ∈ s)
  | .idx _ => true

/-- The restriction under which the path round-trip holds: at most one
leading integer index before the first string key, and every key free
of the decoder's markup characters and of newlines. -/
def pathOK (p : List Seg) : Prop :=
  (p.takeWhile Seg.isIdx).length ≤ 1 ∧ ∀ x ∈ p, segCharsOK x = true

instance (p : List Seg) : Decidable (pathOK p) :=
  @instDecidableAnd _ _ _ (List.decidableBAll _ p)

/-- The literal piece of `_compare`'s output that precedes the minted
placeholder. -/
def cmpLit (k : List Char) (sym : CmpSym) : List Char :=
  strL "( JSON_EXTRACT(data, " ++ sqlite_quote k ++ strL ") " ++
    sym.chars ++ strL " "

/-- The literal piece of `_from_equality`'s output that precedes the
minted placeholder. -/
def eqLit (k : List Char) : List Char :=
  strL "( JSON_EXTRACT(data, " ++ sqlite_quote k ++ strL ") = "

/-- Well-formedness of one chunk (`lo`/`hi` bracket the token supply):
a literal must be clean for the token scanner, contribute no bind
parameter, and leave the literal automaton balanced; a token index must
lie in the supply window. -/
def ChunkOK (lo hi : Nat) : Chunk → Prop
  | .lit s => cleanLit s = true ∧ cpCount s false = 0 ∧ cpState s false = false
  | .tok n _ => lo ≤ n ∧ n < hi

/-- The compiler invariant carried by every set `Query` state whose
tokens come from the supply window `[lo, hi)`: its text renders a chunk
list of clean literals and in-window tokens, the text is non-empty
(truthy), each token's recorded value is found in `_qdict`, and `_qdict`
holds exactly in-window token keys without duplicates. -/
def QInv (q : QState) (lo hi : Nat) : Prop :=
  ∃ chunks : List Chunk,
    q.query = some (renderC chunks) ∧
    renderC chunks ≠ [] ∧
    (∀ ch ∈ chunks, ChunkOK lo hi ch) ∧
    (∀ n v, Chunk.tok n v ∈ chunks → pyLookup q.qdict (randkey n) = some v) ∧
    (∀ p ∈ q.qdict, ∃ m, lo ≤ m ∧ m < hi ∧ p.1 = randkey m) ∧
    (q.qdict.map Prod.fst).Nodup

/-- The hypothesis of the compiled-query theorems: every path quoted
into a comparison is free of the token-opener pattern (true of every
path with probability one for random tokens; a clash would make the
compilation raise `KeyError` rather than succeed wrongly). -/
def QExpr.clean : QExpr → Prop
  | .cmp p _ _ => cleanLit (sqlite_quote (jsonpathOfSegs p)) = true
  | .qand a b => a.clean ∧ b.clean
  | .qor a b => a.clean ∧ b.clean
  | .qnot a => a.clean

/-- Cleanliness of an expression tree is decidable (used to discharge
the compiled-query hypotheses at concrete inputs). -/
instance QExpr.cleanDecidable : (e : QExpr) → Decidable e.clean
  | .cmp p _ _ => Bool.decEq (cleanLit (sqlite_quote (jsonpathOfSegs p))) true
  | .qand a b => @instDecidableAnd _ _ (cleanDecidable a) (cleanDecidable b)
  | .qor a b => @instDecidableAnd _ _ (cleanDecidable a) (cleanDecidable b)
  | .qnot a => cleanDecidable a

/-- The invariant carried by the folds of `_query2sql`: the optional
accumulator, when set, satisfies `QInv` for the supply window scanned
so far. -/
def OptInv (acc : Option QState) (lo n : Nat) : Prop :=
  match acc with
  | none => True
  | some q => QInv q lo n

/-- Decidable equality for `Except` results (used to settle concrete
evaluations by `decide`). -/
instance {ε α : Type} [DecidableEq ε] [DecidableEq α] :
    DecidableEq (Except ε α) := fun x y =>
  match x, y with
  | .error a, .error b =>
    if h : a = b then .isTrue (by rw [h]) else .isFalse (by simp [h])
  | .ok a, .ok b =>
    if h : a = b then .isTrue (by rw [h]) else .isFalse (by simp [h])
  | .error _, .ok _ => .isFalse (by simp)
  | .ok _, .error _ => .isFalse (by simp)

/-!
# Theorems

First the recurrences of the fuelled definitions, then the supporting
lemmas, then one theorem per claim (with its witness or counterexample
where required).
-/

/-- Fuel does not matter for `natCharsF` once it exceeds the argument. -/
theorem natCharsF_congr :
    ∀ n f f', n < f → n < f' → natCharsF f n = natCharsF f' n := by
  intro n
  induction n using Nat.strong_induction_on with
  | _ n ih =>
    intro f f' hf hf'
    match f, f' with
    | f + 1, f' + 1 =>
      simp only [natCharsF]
      by_cases h10 : n < 10
      · simp [h10]
      · rw [if_neg h10, if_neg h10]
        have hdiv : n / 10 < n := Nat.div_lt_self (by omega) (by omega)
        rw [ih (n / 10) hdiv f f' (by omega) (by omega)]

/-- The direct recurrence of `natChars`. -/
theorem natChars_unfold (n : Nat) :
    natChars n =
      if n < 10 then [dchar n] else natChars (n / 10) ++ [dchar (n % 10)] := by
  show natCharsF (n + 1) n = _
  by_cases h10 : n < 10
  · simp [natCharsF, h10]
  · have hdiv : n / 10 < n := Nat.div_lt_self (by omega) (by omega)
    simp only [natCharsF, if_neg h10]
    rw [natCharsF_congr (n / 10) n (n / 10 + 1) (by omega) (by omega)]
    rfl

/-- Fuel does not matter for `groupIntsF` once it exceeds the length. -/
theorem groupIntsF_congr :
    ∀ f f' (l : List Seg), l.length < f → l.length < f' →
      groupIntsF f l = groupIntsF f' l := by
  intro f
  induction f with
  | zero => intro f' l hf hf'; omega
  | succ f ih =>
    intro f' l hf hf'
    match f' with
    | 0 => exact absurd hf' (by omega)
    | f' + 1 =>
      match l with
      | [] => rfl
      | x :: rest =>
        simp only [groupIntsF]
        have hlen : (rest.dropWhile Seg.isIdx).length ≤ rest.length :=
          (List.dropWhile_sublist Seg.isIdx).length_le
        simp only [List.length_cons] at hf hf'
        rw [ih f' (rest.dropWhile Seg.isIdx) (by omega) (by omega)]

/-- The direct recurrence of `group_ints_with_preceding_string`. -/
theorem group_ints_unfold (x : Seg) (rest : List Seg) :
    group_ints_with_preceding_string (x :: rest) =
      (x :: rest.takeWhile Seg.isIdx) ::
        group_ints_with_preceding_string (rest.dropWhile Seg.isIdx) := by
  show groupIntsF ((x :: rest).length + 1) (x :: rest) = _
  have hlen : (rest.dropWhile Seg.isIdx).length ≤ rest.length :=
    (List.dropWhile_sublist Seg.isIdx).length_le
  simp only [List.length_cons, groupIntsF]
  rw [groupIntsF_congr (rest.length + 1)
    ((rest.dropWhile Seg.isIdx).length + 1) (rest.dropWhile Seg.isIdx)
    (by omega) (by omega)]
  rfl

/-- The empty case of the grouping. -/
theorem group_ints_nil : group_ints_with_preceding_string [] = [] := rfl

/-- The remainder a successful `closeScan` returns is strictly shorter
than the input (it lies past the three closer characters). -/
theorem closeScan_length {cs : List Char} {b after : List Char}
    (h : closeScan cs = some (b, after)) : after.length + 3 ≤ cs.length := by
  induction cs generalizing b after with
  | nil => simp [closeScan] at h
  | cons c r ih =>
    rw [closeScan] at h
    by_cases h1 : c = '<' ∧ r.take 2 = ['<', '!']
    · rw [if_pos h1] at h
      obtain ⟨h1l, h1r⟩ := h1
      simp only [Option.some.injEq, Prod.mk.injEq] at h
      obtain ⟨hb, ha⟩ := h
      have h2 : 2 ≤ r.length := by
        have h3 := congrArg List.length h1r
        simp [List.length_take] at h3
        omega
      subst ha
      simp only [List.length_drop, List.length_cons]
      omega
    · rw [if_neg h1] at h
      by_cases h2 : c = '\n'
      · rw [if_pos h2] at h
        exact absurd h (by simp)
      · rw [if_neg h2] at h
        cases hcr : closeScan r with
        | none => rw [hcr] at h; exact absurd h (by simp)
        | some p =>
          obtain ⟨p1, p2⟩ := p
          rw [hcr] at h
          simp only [Option.map_some', Option.some.injEq, Prod.mk.injEq] at h
          obtain ⟨hb, ha⟩ := h
          subst ha
          have h4 := ih hcr
          simp only [List.length_cons]
          omega

/-- Fuel does not matter for `scanSubF` once it exceeds the length. -/
theorem scanSubF_congr :
    ∀ f f' (cs : List Char), cs.length < f → cs.length < f' →
      scanSubF f cs = scanSubF f' cs := by
  intro f
  induction f with
  | zero => intro f' cs hf hf'; omega
  | succ f ih =>
    intro f' cs hf hf'
    match f' with
    | 0 => exact absurd hf' (by omega)
    | f' + 1 =>
      match cs with
      | [] => rfl
      | c :: rest =>
        simp only [scanSubF]
        simp only [List.length_cons] at hf hf'
        by_cases h1 : c = '!' ∧ rest.take 2 = ['>', '>']
        · rw [if_pos h1, if_pos h1]
          cases hcr : closeScan (rest.drop 2) with
          | none => dsimp only; rw [ih f' rest (by omega) (by omega)]
          | some p =>
            obtain ⟨body, after⟩ := p
            dsimp only
            have h5 := closeScan_length hcr
            have h6 : (rest.drop 2).length ≤ rest.length := by
              simp [List.length_drop]
            rw [ih f' after (by omega) (by omega)]
        · rw [if_neg h1, if_neg h1]
          rw [ih f' rest (by omega) (by omega)]

/-- The direct recurrence of `scanSub`. -/
theorem scanSub_unfold (c : Char) (rest : List Char) :
    scanSub (c :: rest) =
      (if c = '!' ∧ rest.take 2 = ['>', '>'] then
        match closeScan (rest.drop 2) with
        | some (body, after) =>
          ('?' :: (scanSub after).1,
            ('!' :: '>' :: '>' :: (body ++ ['<', '<', '!'])) :: (scanSub after).2)
        | none => ('!' :: (scanSub rest).1, (scanSub rest).2)
      else (c :: (scanSub rest).1, (scanSub rest).2)) := by
  show scanSubF ((c :: rest).length + 1) (c :: rest) = _
  simp only [List.length_cons, scanSubF]
  by_cases h1 : c = '!' ∧ rest.take 2 = ['>', '>']
  · rw [if_pos h1, if_pos h1]
    cases hcr : closeScan (rest.drop 2) with
    | none => rfl
    | some p =>
      obtain ⟨body, after⟩ := p
      dsimp only
      have h5 := closeScan_length hcr
      have h6 : (rest.drop 2).length ≤ rest.length := by
        simp [List.length_drop]
      rw [scanSubF_congr (rest.length + 1) (after.length + 1) after
        (by omega) (by omega)]
      rfl
  · rw [if_neg h1, if_neg h1]
    rfl

/-- The empty case of `scanSub`. -/
theorem scanSub_nil : scanSub [] = ([], []) := rfl

/-! ## Digit rendering and parsing -/

/-- `dchar` of a digit is a digit character. -/
theorem isDigitCh_dchar (k : Nat) (h : k < 10) : isDigitCh (dchar k) = true := by
  interval_cases k <;> decide

/-- `digitVal` inverts `dchar` on digits. -/
theorem digitVal_dchar (k : Nat) (h : k < 10) : digitVal (dchar k) = k := by
  interval_cases k <;> decide

/-- The decimal rendering is never empty. -/
theorem natChars_ne_nil (n : Nat) : natChars n ≠ [] := by
  rw [natChars_unfold]
  by_cases h : n < 10
  · simp [h]
  · simp [h]

/-- Every character of the decimal rendering is a digit. -/
theorem natChars_digits (n : Nat) : ∀ c ∈ natChars n, isDigitCh c = true := by
  induction n using Nat.strong_induction_on with
  | _ n ih =>
    rw [natChars_unfold]
    by_cases h : n < 10
    · simp only [if_pos h, List.mem_singleton]
      intro c hc
      subst hc
      exact isDigitCh_dchar n h
    · simp only [if_neg h, List.mem_append, List.mem_singleton]
      intro c hc
      rcases hc with hc | hc
      · exact ih (n / 10) (Nat.div_lt_self (by omega) (by omega)) c hc
      · subst hc
        exact isDigitCh_dchar (n % 10) (Nat.mod_lt _ (by omega))

/-- Folding the parse function over the rendered digits recovers the
number. -/
theorem natChars_foldl (n : Nat) :
    (natChars n).foldl (fun a c => 10 * a + digitVal c) 0 = n := by
  induction n using Nat.strong_induction_on with
  | _ n ih =>
    rw [natChars_unfold]
    by_cases h : n < 10
    · simp only [if_pos h, List.foldl_cons, List.foldl_nil]
      rw [digitVal_dchar n h]
      omega
    · simp only [if_neg h, List.foldl_append, List.foldl_cons, List.foldl_nil]
      rw [ih (n / 10) (Nat.div_lt_self (by omega) (by omega))]
      rw [digitVal_dchar (n % 10) (Nat.mod_lt _ (by omega))]
      omega

/-- `pyParseNat` inverts `natChars`. -/
theorem pyParseNat_natChars (n : Nat) : pyParseNat (natChars n) = some n := by
  rw [pyParseNat, if_pos, natChars_foldl]
  exact ⟨natChars_ne_nil n, List.all_eq_true.mpr (natChars_digits n)⟩

/-- A digit character is neither `-` nor `+`. -/
theorem digit_not_sign {c : Char} (h : isDigitCh c = true) :
    c ≠ '-' ∧ c ≠ '+' := by
  refine ⟨fun hc => ?_, fun hc => ?_⟩ <;> subst hc <;> revert h <;> decide

/-- The head of the decimal rendering is a digit, hence not a sign. -/
theorem natChars_head_not_sign (n : Nat) :
    (natChars n).head? ≠ some '-' ∧ (natChars n).head? ≠ some '+' := by
  cases hh : natChars n with
  | nil => exact absurd hh (natChars_ne_nil n)
  | cons c r =>
    have hc : isDigitCh c = true := by
      apply natChars_digits n
      rw [hh]; exact List.mem_cons_self _ _
    have hs := digit_not_sign hc
    constructor
    · simp only [List.head?_cons, ne_eq, Option.some.injEq]
      exact hs.1
    · simp only [List.head?_cons, ne_eq, Option.some.injEq]
      exact hs.2

/-- `pyParseInt` inverts `intChars`: Python's `int()` applied to the
decimal rendering of any Python int returns that int. -/
theorem pyParseInt_intChars (i : Int) : pyParseInt (intChars i) = some i := by
  by_cases hneg : i < 0
  · rw [intChars, if_pos hneg, pyParseInt]
    simp only [List.head?_cons, List.tail_cons]
    rw [pyParseNat_natChars]
    show some (-(i.natAbs : Int)) = some i
    congr 1
    omega
  · rw [intChars, if_neg hneg, pyParseInt]
    have hs := natChars_head_not_sign i.natAbs
    rw [if_neg hs.1, if_neg hs.2, pyParseNat_natChars]
    show some ((i.natAbs : Nat) : Int) = some i
    congr 1
    omega

/-! ## Splitter lemmas (towards the path round-trip) -/

/-- Reconstruction of a matched span: the scanned input is the body,
then the closing quote, then the remainder, and the body holds neither
a quote nor a newline. -/
theorem closeQuoteScan_inv :
    ∀ {r body after : List Char}, closeQuoteScan r = some (body, after) →
      r = body ++ '"' :: after ∧ ∀ c ∈ body, c ≠ '"' ∧ c ≠ '\n' := by
  intro r
  induction r with
  | nil => intro body after h; cases h
  | cons c t ih =>
    intro body after h
    simp only [closeQuoteScan] at h
    by_cases hc : c = '"'
    · rw [if_pos hc] at h
      have hp := Option.some.inj h
      have hb : ([] : List Char) = body := congrArg Prod.fst hp
      have ha : t = after := congrArg Prod.snd hp
      subst hc
      rw [← hb, ← ha]
      exact ⟨rfl, fun x hx => absurd hx (List.not_mem_nil x)⟩
    · rw [if_neg hc] at h
      by_cases hn : c = '\n'
      · rw [if_pos hn] at h; cases h
      · rw [if_neg hn] at h
        cases hcs : closeQuoteScan t with
        | none => rw [hcs] at h; cases h
        | some p =>
          obtain ⟨b', a'⟩ := p
          rw [hcs] at h
          simp only [Option.map_some'] at h
          have hp := Option.some.inj h
          have hb : c :: b' = body := congrArg Prod.fst hp
          have ha : a' = after := congrArg Prod.snd hp
          obtain ⟨hr, hchars⟩ := ih hcs
          constructor
          · rw [← hb, ← ha, List.cons_append, ← hr]
          · intro x hx
            rw [← hb] at hx
            rcases List.mem_cons.mp hx with hx | hx
            · subst hx; exact ⟨hc, hn⟩
            · exact hchars x hx

/-- A span over a clean body closes at the following quote. -/
theorem closeQuoteScan_of_body (b t : List Char)
    (hb : ∀ c ∈ b, c ≠ '"' ∧ c ≠ '\n') :
    closeQuoteScan (b ++ '"' :: t) = some (b, t) := by
  induction b with
  | nil => rfl
  | cons c r ih =>
    have hc := hb c (List.mem_cons_self _ _)
    rw [List.cons_append]
    simp only [closeQuoteScan]
    rw [if_neg hc.1, if_neg hc.2,
      ih (fun x hx => hb x (List.mem_cons_of_mem _ hx))]
    rfl

/-- The remainder after a matched span is shorter than the input. -/
theorem closeQuoteScan_length {r body after : List Char}
    (h : closeQuoteScan r = some (body, after)) :
    after.length < r.length := by
  have hr := (closeQuoteScan_inv h).1
  rw [hr, List.length_append, List.length_cons]
  omega

/-- Fuel does not matter for `splitNQF` once it exceeds the input. -/
theorem splitNQF_congr :
    ∀ f f' (d : Char) (cs : List Char), cs.length < f → cs.length < f' →
      splitNQF d f cs = splitNQF d f' cs := by
  intro f
  induction f with
  | zero => intro f' d cs hf hf'; omega
  | succ f ih =>
    intro f' d cs hf hf'
    match f' with
    | 0 => exact absurd hf' (by omega)
    | f' + 1 =>
      match cs with
      | [] => rfl
      | c :: rest =>
        simp only [splitNQF]
        simp only [List.length_cons] at hf hf'
        by_cases h1 : c = '"'
        · rw [if_pos h1, if_pos h1]
          cases hcr : closeQuoteScan rest with
          | none => dsimp only; rw [ih f' d rest (by omega) (by omega)]
          | some p =>
            obtain ⟨body, after⟩ := p
            dsimp only
            have h5 := closeQuoteScan_length hcr
            rw [ih f' d after (by omega) (by omega)]
        · rw [if_neg h1, if_neg h1]
          by_cases h2 : c = d
          · rw [if_pos h2, if_pos h2, ih f' d rest (by omega) (by omega)]
          · rw [if_neg h2, if_neg h2, ih f' d rest (by omega) (by omega)]

/-- The direct recurrence of `split_no_double_quotes`. -/
theorem splitNQ_unfold (d c : Char) (rest : List Char) :
    split_no_double_quotes (c :: rest) d =
      (if c = '"' then
        match closeQuoteScan rest with
        | some (body, after) =>
          match split_no_double_quotes after d with
          | [] => [('"' :: (body ++ ['"']))]
          | g :: gs => (('"' :: (body ++ ['"'])) ++ g) :: gs
        | none =>
          match split_no_double_quotes rest d with
          | [] => [[c]]
          | g :: gs => (c :: g) :: gs
      else if c = d then [] :: split_no_double_quotes rest d
      else
        match split_no_double_quotes rest d with
        | [] => [[c]]
        | g :: gs => (c :: g) :: gs) := by
  show splitNQF d ((c :: rest).length + 1) (c :: rest) = _
  simp only [List.length_cons, splitNQF]
  by_cases h1 : c = '"'
  · rw [if_pos h1, if_pos h1]
    cases hcr : closeQuoteScan rest with
    | none =>
      dsimp only
      rfl
    | some p =>
      obtain ⟨body, after⟩ := p
      dsimp only
      have h5 := closeQuoteScan_length hcr
      rw [splitNQF_congr (rest.length + 1) (after.length + 1) d after
        (by omega) (by omega)]
      rfl
  · rw [if_neg h1, if_neg h1]
    by_cases h2 : c = d
    · rw [if_pos h2, if_pos h2]
      rfl
    · rw [if_neg h2, if_neg h2]
      rfl

/-- Fuel does not matter for `nqScanF` once it exceeds the input. -/
theorem nqScanF_congr :
    ∀ f f' (d : Char) (cs : List Char), cs.length < f → cs.length < f' →
      nqScanF d f cs = nqScanF d f' cs := by
  intro f
  induction f with
  | zero => intro f' d cs hf hf'; omega
  | succ f ih =>
    intro f' d cs hf hf'
    match f' with
    | 0 => exact absurd hf' (by omega)
    | f' + 1 =>
      match cs with
      | [] => rfl
      | c :: rest =>
        simp only [nqScanF]
        simp only [List.length_cons] at hf hf'
        by_cases h1 : c = '"'
        · rw [if_pos h1, if_pos h1]
          cases hcr : closeQuoteScan rest with
          | none => rfl
          | some p =>
            obtain ⟨body, after⟩ := p
            dsimp only
            have h5 := closeQuoteScan_length hcr
            rw [ih f' d after (by omega) (by omega)]
        · rw [if_neg h1, if_neg h1]
          by_cases h2 : c = d
          · rw [if_pos h2, if_pos h2]
          · rw [if_neg h2, if_neg h2, ih f' d rest (by omega) (by omega)]

/-- The direct recurrence of `nqScan`. -/
theorem nqScan_unfold (d c : Char) (rest : List Char) :
    nqScan d (c :: rest) =
      (if c = '"' then
        match closeQuoteScan rest with
        | some p => nqScan d p.2
        | none => false
      else if c = d then false
      else nqScan d rest) := by
  show nqScanF d ((c :: rest).length + 1) (c :: rest) = _
  simp only [List.length_cons, nqScanF]
  by_cases h1 : c = '"'
  · rw [if_pos h1, if_pos h1]
    cases hcr : closeQuoteScan rest with
    | none => rfl
    | some p =>
      obtain ⟨body, after⟩ := p
      dsimp only
      have h5 := closeQuoteScan_length hcr
      rw [nqScanF_congr (rest.length + 1) (after.length + 1) d after
        (by omega) (by omega)]
      rfl
  · rw [if_neg h1, if_neg h1]
    by_cases h2 : c = d
    · rw [if_pos h2, if_pos h2]
    · rw [if_neg h2, if_neg h2]
      rfl

/-- A part whose characters avoid both the quote and the delimiter is
splitter-safe. -/
theorem nqScan_of_plain {d : Char} {x : List Char}
    (h : ∀ c ∈ x, c ≠ '"' ∧ c ≠ d) : nqScan d x = true := by
  induction x with
  | nil => rfl
  | cons c r ih =>
    obtain ⟨hc1, hc2⟩ := h c (List.mem_cons_self _ _)
    rw [nqScan_unfold, if_neg hc1, if_neg hc2]
    exact ih (fun x hx => h x (List.mem_cons_of_mem _ hx))

/-- A splitter-safe part is returned whole. -/
theorem splitNQ_whole {d : Char} :
    ∀ (n : Nat) (x : List Char), x.length ≤ n → nqScan d x = true →
      split_no_double_quotes x d = [x] := by
  intro n
  induction n with
  | zero =>
    intro x hx _
    have hxe : x = [] := List.length_eq_zero.mp (Nat.le_zero.mp hx)
    subst hxe
    rfl
  | succ n ih =>
    intro x hx h
    cases x with
    | nil => rfl
    | cons c rest =>
      rw [nqScan_unfold] at h
      rw [splitNQ_unfold]
      by_cases h1 : c = '"'
      · rw [if_pos h1] at h ⊢
        cases hcr : closeQuoteScan rest with
        | none =>
          rw [hcr] at h
          exact Bool.noConfusion h
        | some p =>
          obtain ⟨body, after⟩ := p
          rw [hcr] at h
          dsimp only at h ⊢
          have hlen := closeQuoteScan_length hcr
          simp only [List.length_cons] at hx
          rw [ih after (by omega) h]
          obtain ⟨hre, _⟩ := closeQuoteScan_inv hcr
          rw [h1, hre]
          simp [List.append_assoc]
      · rw [if_neg h1] at h ⊢
        by_cases h2 : c = d
        · rw [if_pos h2] at h; cases h
        · rw [if_neg h2] at h ⊢
          simp only [List.length_cons] at hx
          rw [ih rest (by omega) h]

/-- A splitter-safe part followed by the delimiter splits off whole. -/
theorem splitNQ_cons {d : Char} (hd : d ≠ '"') :
    ∀ (n : Nat) (x : List Char), x.length ≤ n → nqScan d x = true →
      ∀ y : List Char,
        split_no_double_quotes (x ++ d :: y) d =
          x :: split_no_double_quotes y d := by
  intro n
  induction n with
  | zero =>
    intro x hx _ y
    have hxe : x = [] := List.length_eq_zero.mp (Nat.le_zero.mp hx)
    subst hxe
    show split_no_double_quotes (d :: y) d = [] :: split_no_double_quotes y d
    rw [splitNQ_unfold, if_neg hd, if_pos rfl]
  | succ n ih =>
    intro x hx h y
    cases x with
    | nil =>
      show split_no_double_quotes (d :: y) d = [] :: split_no_double_quotes y d
      rw [splitNQ_unfold, if_neg hd, if_pos rfl]
    | cons c rest =>
      rw [nqScan_unfold] at h
      rw [List.cons_append, splitNQ_unfold]
      by_cases h1 : c = '"'
      · rw [if_pos h1] at h ⊢
        cases hcr : closeQuoteScan rest with
        | none =>
          rw [hcr] at h
          exact Bool.noConfusion h
        | some p =>
          obtain ⟨body, after⟩ := p
          rw [hcr] at h
          dsimp only at h
          obtain ⟨hre, hchars⟩ := closeQuoteScan_inv hcr
          have hcr2 : closeQuoteScan (rest ++ d :: y) =
              some (body, after ++ d :: y) := by
            rw [hre, List.append_assoc, List.cons_append]
            exact closeQuoteScan_of_body body (after ++ d :: y) hchars
          rw [hcr2]
          dsimp only
          have hlen := closeQuoteScan_length hcr
          simp only [List.length_cons] at hx
          rw [ih after (by omega) h y]
          dsimp only
          rw [h1, hre]
          simp [List.append_assoc]
      · rw [if_neg h1] at h ⊢
        by_cases h2 : c = d
        · rw [if_pos h2] at h; cases h
        · rw [if_neg h2] at h ⊢
          simp only [List.length_cons] at hx
          rw [ih rest (by omega) h y]

/-- Splitting the joined parts recovers the parts, when every part is
splitter-safe. -/
theorem splitNQ_joinSep {d : Char} (hd : d ≠ '"') :
    ∀ parts : List (List Char), parts ≠ [] →
      (∀ pt ∈ parts, nqScan d pt = true) →
      split_no_double_quotes (joinSep d parts) d = parts := by
  intro parts
  induction parts with
  | nil => intro h; exact absurd rfl h
  | cons p ps ih =>
    intro _ hparts
    have hp := hparts p (List.mem_cons_self _ _)
    cases ps with
    | nil =>
      show split_no_double_quotes p d = [p]
      exact splitNQ_whole p.length p (Nat.le_refl _) hp
    | cons p2 ps2 =>
      show split_no_double_quotes (p ++ d :: joinSep d (p2 :: ps2)) d = _
      rw [splitNQ_cons hd p.length p (Nat.le_refl _) hp]
      rw [ih (by simp) (fun pt hm => hparts pt (List.mem_cons_of_mem _ hm))]

/-! ## Character classes of rendered paths -/

/-- Characters of a rendered integer: a sign or digits. -/
theorem intChars_chars (i : Int) :
    ∀ c ∈ intChars i, c = '-' ∨ isDigitCh c = true := by
  intro c hc
  rw [intChars] at hc
  by_cases hneg : i < 0
  · rw [if_pos hneg] at hc
    rcases List.mem_cons.mp hc with hc | hc
    · exact Or.inl hc
    · exact Or.inr (natChars_digits _ c hc)
  · rw [if_neg hneg] at hc
    exact Or.inr (natChars_digits _ c hc)

/-- Characters of rendered bracket subscripts: bracket, sign or digit. -/
theorem segBrackets_chars (l : List Seg) :
    ∀ c ∈ segBrackets l,
      c = '[' ∨ c = ']' ∨ c = '-' ∨ isDigitCh c = true := by
  intro c hc
  rw [segBrackets] at hc
  rw [List.mem_flatten] at hc
  obtain ⟨piece, hpiece, hcp⟩ := hc
  rw [List.mem_map] at hpiece
  obtain ⟨i, hi, hpe⟩ := hpiece
  subst hpe
  rcases List.mem_cons.mp hcp with hc1 | hc1
  · exact Or.inl hc1
  · rcases List.mem_append.mp hc1 with hc2 | hc2
    · rcases intChars_chars i c hc2 with h | h
      · exact Or.inr (Or.inr (Or.inl h))
      · exact Or.inr (Or.inr (Or.inr h))
    · rw [List.mem_singleton] at hc2
      exact Or.inr (Or.inl hc2)

/-- A digit character is none of the decoder's special characters. -/
theorem digit_not_special {c : Char} (h : isDigitCh c = true) :
    c ≠ '"' ∧ c ≠ '.' ∧ c ≠ '[' ∧ c ≠ ']' := by
  refine ⟨fun hc => ?_, fun hc => ?_, fun hc => ?_, fun hc => ?_⟩ <;>
    subst hc <;> revert h <;> decide

/-- Bracket-subscript characters are neither quotes nor dots. -/
theorem segBrackets_no_quote_dot (l : List Seg) :
    ∀ c ∈ segBrackets l, c ≠ '"' ∧ c ≠ '.' := by
  intro c hc
  rcases segBrackets_chars l c hc with h | h | h | h
  · subst h; exact ⟨by decide, by decide⟩
  · subst h; exact ⟨by decide, by decide⟩
  · subst h; exact ⟨by decide, by decide⟩
  · exact ⟨(digit_not_special h).1, (digit_not_special h).2.1⟩

/-- A rendered key group is splitter-safe: the quoted key is one
matched span (its body holds no quote and no newline) and the bracket
subscripts hold neither a quote nor a dot. -/
theorem renderGroup_scan (s : List Char) (ints : List Seg)
    (hs : ¬ '"' ∈ s) (hn : ¬ '\n' ∈ s) :
    nqScan '.' (renderGroup (Seg.key s :: ints)) = true := by
  have hform : renderGroup (Seg.key s :: ints) =
      '"' :: (s ++ ('"' :: segBrackets ints)) := by
    simp [renderGroup, Seg.raw]
  rw [hform, nqScan_unfold, if_pos rfl]
  have hbody : ∀ c ∈ s, c ≠ '"' ∧ c ≠ '\n' := by
    intro c hc
    exact ⟨fun he => hs (he ▸ hc), fun he => hn (he ▸ hc)⟩
  rw [closeQuoteScan_of_body s (segBrackets ints) hbody]
  exact nqScan_of_plain (segBrackets_no_quote_dot ints)

/-- A leading `$[...]` part is splitter-safe. -/
theorem leadPart_scan (g : List Seg) :
    nqScan '.' ('$' :: segBrackets g) = true := by
  refine nqScan_of_plain ?_
  intro c hc
  rcases List.mem_cons.mp hc with hc | hc
  · subst hc; exact ⟨by decide, by decide⟩
  · exact segBrackets_no_quote_dot g c hc

/-! ## Decoding one part -/

/-- A plain split leaves a separator-free string whole. -/
theorem splitOnChar_whole {d : Char} {a : List Char} (h : ¬ d ∈ a) :
    splitOnChar d a = [a] := by
  induction a with
  | nil => rfl
  | cons c r ih =>
    have hc : c ≠ d := fun hc => h (hc ▸ List.mem_cons_self _ _)
    have hr : ¬ d ∈ r := fun hm => h (List.mem_cons_of_mem _ hm)
    simp only [splitOnChar, if_neg (fun hcd => hc hcd), ih hr]

/-- A plain split separates at the first separator after a
separator-free prefix. -/
theorem splitOnChar_cons {d : Char} {a : List Char} (h : ¬ d ∈ a)
    (b : List Char) :
    splitOnChar d (a ++ d :: b) = a :: splitOnChar d b := by
  induction a with
  | nil =>
    simp only [List.nil_append, splitOnChar, eq_self_iff_true, if_true]
  | cons c r ih =>
    have hc : c ≠ d := fun hc => h (hc ▸ List.mem_cons_self _ _)
    have hr : ¬ d ∈ r := fun hm => h (List.mem_cons_of_mem _ hm)
    simp only [List.cons_append, splitOnChar, if_neg (fun hcd => hc hcd),
      List.append_eq]
    rw [ih hr]

/-- Splitting a prefix followed by rendered bracket groups yields the
prefix and one chunk per subscript. -/
theorem splitOnChar_brackets :
    ∀ (ints : List Int) (h : List Char), ¬ '[' ∈ h →
      splitOnChar '[' (h ++ (ints.map (fun i => '[' :: (intChars i ++ [']']))).flatten) =
        h :: ints.map (fun i => intChars i ++ [']']) := by
  intro ints
  induction ints with
  | nil =>
    intro h hh
    simp only [List.map_nil, List.flatten_nil, List.append_nil]
    exact splitOnChar_whole hh
  | cons i rest ih =>
    intro h hh
    simp only [List.map_cons, List.flatten_cons]
    have hni : ¬ '[' ∈ intChars i ++ [']'] := by
      intro hm
      rcases List.mem_append.mp hm with hm | hm
      · rcases intChars_chars i '[' hm with h1 | h1
        · cases h1
        · exact absurd h1 (by decide)
      · rw [List.mem_singleton] at hm; cases hm
    have := ih (intChars i ++ [']']) hni
    calc splitOnChar '[' (h ++ ('[' :: (intChars i ++ [']']) ++
          (rest.map (fun i => '[' :: (intChars i ++ [']']))).flatten))
        = splitOnChar '[' (h ++ '[' :: ((intChars i ++ [']']) ++
          (rest.map (fun i => '[' :: (intChars i ++ [']']))).flatten)) := by
          simp
      _ = h :: splitOnChar '[' ((intChars i ++ [']']) ++
          (rest.map (fun i => '[' :: (intChars i ++ [']']))).flatten) :=
          splitOnChar_cons hh _
      _ = h :: (intChars i ++ [']']) :: rest.map (fun i => intChars i ++ [']']) := by
          rw [this]

/-- Stripping the surrounding double quotes from a quote-free key. -/
theorem pyStrip_quoted {s : List Char} (hs : ¬ '"' ∈ s) :
    pyStripChar '"' ('"' :: (s ++ ['"'])) = s := by
  match s, hs with
  | [], _ => decide
  | c :: s', hs =>
    have hc : c ≠ '"' := fun hc => hs (hc ▸ List.mem_cons_self _ _)
    have hall : ∀ x ∈ c :: s', x ≠ '"' := fun x hm hx => hs (hx ▸ hm)
    rw [pyStripChar]
    have h1 : List.dropWhile (· = '"') ('"' :: ((c :: s') ++ ['"'])) =
        (c :: s') ++ ['"'] := by
      rw [List.dropWhile_cons]
      rw [if_pos (by simp)]
      rw [List.cons_append, List.dropWhile_cons]
      rw [if_neg (by simp [hc])]
    rw [h1]
    have h2 : ((c :: s') ++ ['"']).reverse = '"' :: (c :: s').reverse := by
      simp
    rw [h2, List.dropWhile_cons, if_pos (by simp)]
    have h3 : List.dropWhile (· = '"') ((c :: s').reverse) = (c :: s').reverse := by
      cases hrev : (c :: s').reverse with
      | nil => rfl
      | cons y ys =>
        have hy : y ∈ (c :: s').reverse := by rw [hrev]; exact List.mem_cons_self _ _
        rw [List.mem_reverse] at hy
        rw [List.dropWhile_cons, if_neg (by simp [hall y hy])]
    rw [h3, List.reverse_reverse]

/-- Removing the `]` suffix of a rendered subscript chunk. -/
theorem removeSuffix_bracket (i : Int) :
    removeSuffix1 (intChars i ++ [']']) ']' = intChars i := by
  rw [removeSuffix1, if_pos (by simp), List.dropLast_concat]

/-- `mapM` over `Except` on a list where the function succeeds pointwise. -/
theorem mapM_ok {α β : Type} {f : α → Except PyErr β} {g : α → β} :
    ∀ l : List α, (∀ x ∈ l, f x = .ok (g x)) → l.mapM f = .ok (l.map g) := by
  intro l
  induction l with
  | nil => intro _; rfl
  | cons x r ih =>
    intro h
    rw [List.mapM_cons, h x (List.mem_cons_self _ _),
      ih (fun y hm => h y (List.mem_cons_of_mem _ hm))]
    rfl

/-- Parsing the rendered subscript chunks recovers the index segments. -/
theorem parse_ix_list :
    ∀ ints : List Int,
      (ints.map (fun i => intChars i ++ [']'])).mapM (fun ix =>
        match pyParseInt (removeSuffix1 ix ']') with
        | some i => Except.ok (Seg.idx i)
        | none => Except.error PyErr.valueError) = .ok (ints.map Seg.idx) := by
  intro ints
  induction ints with
  | nil => rfl
  | cons i rest ih =>
    rw [List.map_cons, List.mapM_cons]
    simp only [removeSuffix_bracket, pyParseInt_intChars]
    rw [ih]
    rfl

/-- The subscripts of mapped indices. -/
theorem segBrackets_map_idx (ints : List Int) :
    segBrackets (ints.map Seg.idx) =
      (ints.map (fun i => '[' :: (intChars i ++ [']']))).flatten := by
  rw [segBrackets, List.filterMap_map]
  have hcomp : (Seg.idxVal? ∘ Seg.idx) = some ∘ id := rfl
  rw [hcomp, List.filterMap_eq_map, List.map_id]

/-- Decoding a rendered key group recovers the group. -/
theorem parseItem_renderGroup (s : List Char) (ints : List Int)
    (hs : ¬ '"' ∈ s) (hb : ¬ '[' ∈ s) :
    parseItem (renderGroup (Seg.key s :: ints.map Seg.idx)) =
      .ok (Seg.key s :: ints.map Seg.idx) := by
  have hform : renderGroup (Seg.key s :: ints.map Seg.idx) =
      ('"' :: (s ++ ['"'])) ++
        (ints.map (fun i => '[' :: (intChars i ++ [']']))).flatten := by
    show '"' :: ((s ++ ['"']) ++ segBrackets (ints.map Seg.idx)) = _
    rw [segBrackets_map_idx]
    simp
  rw [hform]
  have hh : ¬ '[' ∈ '"' :: (s ++ ['"']) := by
    intro hm
    rcases List.mem_cons.mp hm with hm | hm
    · cases hm
    · rcases List.mem_append.mp hm with hm | hm
      · exact hb hm
      · rw [List.mem_singleton] at hm; cases hm
  have hsplit := splitOnChar_brackets ints ('"' :: (s ++ ['"'])) hh
  rw [parseItem, hsplit]
  simp only []
  rw [parse_ix_list]
  rw [pyStrip_quoted hs]
  rfl

/-- A list of index segments is the index-mapping of its values. -/
theorem all_idx_eq_map :
    ∀ tail : List Seg, (∀ x ∈ tail, x.isIdx = true) →
      tail = (tail.filterMap Seg.idxVal?).map Seg.idx := by
  intro tail
  induction tail with
  | nil => intro _; rfl
  | cons x r ih =>
    intro htail
    have hx := htail x (List.mem_cons_self _ _)
    match x, hx with
    | Seg.idx i, _ =>
      rw [List.filterMap_cons_some (show Seg.idxVal? (Seg.idx i) = some i from rfl)]
      rw [List.map_cons]
      rw [← ih (fun y hy => htail y (List.mem_cons_of_mem _ hy))]

/-- Decoding a rendered key group with abstract index tail: every
non-leading group produced by the grouping of a path is a key followed
by index segments, and decodes back to itself. -/
theorem parseItem_renderGroup_segs (s : List Char) (tail : List Seg)
    (hs : ¬ '"' ∈ s) (hb : ¬ '[' ∈ s)
    (htail : ∀ x ∈ tail, x.isIdx = true) :
    parseItem (renderGroup (Seg.key s :: tail)) = .ok (Seg.key s :: tail) := by
  rw [all_idx_eq_map tail htail]
  exact parseItem_renderGroup s (tail.filterMap Seg.idxVal?) hs hb

/-! ## Structure of the grouping -/

/-- Elements of a `takeWhile` satisfy the predicate. -/
theorem mem_takeWhile_pred {α : Type} {p : α → Bool} :
    ∀ {l : List α} {x : α}, x ∈ l.takeWhile p → p x = true := by
  intro l
  induction l with
  | nil => intro x hx; cases hx
  | cons a r ih =>
    intro x hx
    rw [List.takeWhile_cons] at hx
    by_cases ha : p a
    · rw [if_pos ha] at hx
      rcases List.mem_cons.mp hx with hx | hx
      · subst hx; exact ha
      · exact ih hx
    · rw [if_neg ha] at hx; cases hx

/-- The head of a `dropWhile` fails the predicate. -/
theorem dropWhile_head_pred {α : Type} {p : α → Bool} :
    ∀ {l : List α} {y : α} {ys : List α},
      l.dropWhile p = y :: ys → p y = false := by
  intro l
  induction l with
  | nil => intro y ys h; cases h
  | cons a r ih =>
    intro y ys h
    rw [List.dropWhile_cons] at h
    by_cases ha : p a
    · rw [if_pos ha] at h; exact ih h
    · rw [if_neg ha] at h
      cases h
      exact Bool.of_not_eq_true ha

/-- An empty `takeWhile` forces an identity `dropWhile`. -/
theorem dropWhile_of_takeWhile_nil {α : Type} {p : α → Bool} {l : List α}
    (h : l.takeWhile p = []) : l.dropWhile p = l := by
  cases l with
  | nil => rfl
  | cons a r =>
    rw [List.takeWhile_cons] at h
    by_cases ha : p a
    · rw [if_pos ha] at h; cases h
    · rw [List.dropWhile_cons, if_neg ha]

/-- Flattening the groups recovers the path. -/
theorem group_flatten (p : List Seg) :
    (group_ints_with_preceding_string p).flatten = p := by
  generalize hn : p.length = n
  induction n using Nat.strong_induction_on generalizing p with
  | _ n ih =>
    match p with
    | [] => rfl
    | x :: rest =>
      rw [group_ints_unfold, List.flatten_cons]
      have hlen : (rest.dropWhile Seg.isIdx).length ≤ rest.length :=
        (List.dropWhile_sublist Seg.isIdx).length_le
      rw [ih (rest.dropWhile Seg.isIdx).length
        (by subst hn; simp only [List.length_cons]; omega) _ rfl]
      rw [List.cons_append, List.takeWhile_append_dropWhile]

/-- For a path that is empty or starts with a key, every group is a key
followed by index segments. -/
theorem group_shape_key :
    ∀ p : List Seg, (p = [] ∨ ∃ s r, p = Seg.key s :: r) →
      ∀ g ∈ group_ints_with_preceding_string p,
        ∃ s tl, g = Seg.key s :: tl ∧ ∀ x ∈ tl, x.isIdx = true := by
  intro p
  generalize hn : p.length = n
  induction n using Nat.strong_induction_on generalizing p with
  | _ n ih =>
    intro hshape g hg
    match p, hshape with
    | [], _ => cases hg
    | Seg.key s :: rest, _ =>
      rw [group_ints_unfold] at hg
      rcases List.mem_cons.mp hg with hg | hg
      · exact ⟨s, rest.takeWhile Seg.isIdx, hg, fun x hx => mem_takeWhile_pred hx⟩
      · have hlen : (rest.dropWhile Seg.isIdx).length ≤ rest.length :=
          (List.dropWhile_sublist Seg.isIdx).length_le
        refine ih (rest.dropWhile Seg.isIdx).length
          (by subst hn; simp only [List.length_cons]; omega) _ rfl ?_ g hg
        cases hdw : rest.dropWhile Seg.isIdx with
        | nil => exact Or.inl rfl
        | cons y ys =>
          have hy := dropWhile_head_pred hdw
          match y, hy with
          | Seg.key s', _ => exact Or.inr ⟨s', ys, rfl⟩
    | Seg.idx i :: rest, hshape =>
      rcases hshape with h | ⟨s, r, h⟩ <;> cases h

/-- For a path starting with a key, the encoder takes the no-leading
branch. -/
theorem jsonpath_key_headed (s0 : List Char) (rest : List Seg) :
    jsonpathOfSegs (Seg.key s0 :: rest) =
      joinDot (['$'] ::
        (group_ints_with_preceding_string (Seg.key s0 :: rest)).map
          renderGroup) := by
  rw [jsonpathOfSegs, group_ints_unfold]

/-- For a path starting with an index, the encoder renders the leading
group as subscripts on `$`. -/
theorem jsonpath_idx_headed (i : Int) (rest : List Seg) :
    jsonpathOfSegs (Seg.idx i :: rest) =
      joinDot (('$' :: segBrackets (Seg.idx i :: rest.takeWhile Seg.isIdx)) ::
        (group_ints_with_preceding_string (rest.dropWhile Seg.isIdx)).map
          renderGroup) := by
  rw [jsonpathOfSegs, group_ints_unfold]

/-- `Except`'s bind on a success reduces to the continuation. -/
theorem exceptOkBind {ε α β : Type} (a : α) (f : α → Except ε β) :
    (Except.ok a >>= f : Except ε β) = f a := rfl

/-- Evaluation of `split_query` on a canonical string with no leading
bracket group. -/
theorem split_query_eval_nolead (s : List Char) (hs : s.head? = some '$')
    (p0 : List Char) (rest : List (List Char))
    (hsplit : split_no_double_quotes s '.' = p0 :: rest)
    (hp0 : ¬ p0.take 2 = ['$', '['])
    (segss : List (List Seg)) (hrest : rest.mapM parseItem = .ok segss) :
    split_query (.str s) = .ok segss.flatten := by
  have hne : s.isEmpty = false := by
    cases s with
    | nil => cases hs
    | cons c cs => rfl
  have hfal : ¬ (PathArg.str s).falsy = true := by
    show ¬ s.isEmpty = true
    rw [hne]
    exact Bool.false_ne_true
  have hb : build_index_path1 (.str s) = .ok s := by
    rw [build_index_path1, if_pos hs]
  rw [split_query, if_neg hfal, hb, exceptOkBind, hsplit]
  simp only []
  rw [if_neg hp0, exceptOkBind, hrest, exceptOkBind, List.nil_append]

/-- Evaluation of `split_query` on a canonical string whose first part
is a single leading bracket group. -/
theorem split_query_eval_lead (s : List Char) (hs : s.head? = some '$')
    (p0 : List Char) (rest : List (List Char))
    (hsplit : split_no_double_quotes s '.' = p0 :: rest)
    (hp0 : p0.take 2 = ['$', '[']) (i : Int)
    (hparse : pyParseInt ((p0.drop 2).dropLast) = some i)
    (segss : List (List Seg)) (hrest : rest.mapM parseItem = .ok segss) :
    split_query (.str s) = .ok (Seg.idx i :: segss.flatten) := by
  have hne : s.isEmpty = false := by
    cases s with
    | nil => cases hs
    | cons c cs => rfl
  have hfal : ¬ (PathArg.str s).falsy = true := by
    show ¬ s.isEmpty = true
    rw [hne]
    exact Bool.false_ne_true
  have hb : build_index_path1 (.str s) = .ok s := by
    rw [build_index_path1, if_pos hs]
  rw [split_query, if_neg hfal, hb, exceptOkBind, hsplit]
  simp only []
  rw [if_pos hp0, hparse]
  simp only []
  rw [exceptOkBind, hrest, exceptOkBind]
  rfl

/-- The join of a part starting with `c` starts with `c`. -/
theorem joinSep_cons_head (d c : Char) (cs : List Char)
    (ps : List (List Char)) : ∃ t, joinSep d ((c :: cs) :: ps) = c :: t := by
  cases ps with
  | nil => exact ⟨cs, rfl⟩
  | cons q qs => exact ⟨cs ++ d :: joinSep d (q :: qs), rfl⟩

/-- Decoding the rendered non-leading groups recovers the groups. -/
theorem mapM_parse_groups :
    ∀ gs : List (List Seg),
      (∀ g ∈ gs, ∃ s tl, g = Seg.key s :: tl ∧ (∀ x ∈ tl, x.isIdx = true) ∧
        ¬ '"' ∈ s ∧ ¬ '[' ∈ s) →
      (gs.map renderGroup).mapM parseItem = .ok gs := by
  intro gs
  induction gs with
  | nil => intro _; rfl
  | cons g r ih =>
    intro hsh
    obtain ⟨s, tl, hge, htl, hq, hb⟩ := hsh g (List.mem_cons_self _ _)
    rw [List.map_cons, List.mapM_cons, hge,
      parseItem_renderGroup_segs s tl hq hb htl,
      ih (fun g' hm => hsh g' (List.mem_cons_of_mem _ hm))]
    rfl

/-- The rendered non-leading groups are splitter-safe parts. -/
theorem parts_scan_groups (gs : List (List Seg))
    (hsh : ∀ g ∈ gs, ∃ s tl, g = Seg.key s :: tl ∧ ¬ '"' ∈ s ∧ ¬ '\n' ∈ s) :
    ∀ pt ∈ gs.map renderGroup, nqScan '.' pt = true := by
  intro pt hpt
  rw [List.mem_map] at hpt
  obtain ⟨g, hgm, hpe⟩ := hpt
  subst hpe
  obtain ⟨s, tl, hge, hq, hn⟩ := hsh g hgm
  rw [hge]
  exact renderGroup_scan s tl hq hn

/-- The path round-trip, under `pathOK`: decoding the canonical string
produced by the tuple encoder returns the original segments. -/
theorem roundtrip_of_pathOK (p : List Seg) (h : pathOK p) :
    split_query (PathArg.str (jsonpathOfSegs p)) = .ok p := by
  obtain ⟨hlead, hkeys⟩ := h
  cases p with
  | nil => decide
  | cons x rest =>
    cases x with
    | key s0 =>
      have hshape : (Seg.key s0 :: rest) = [] ∨
          ∃ s r, (Seg.key s0 :: rest) = Seg.key s :: r := Or.inr ⟨s0, rest, rfl⟩
      have hkeyinfo : ∀ g ∈ group_ints_with_preceding_string (Seg.key s0 :: rest),
          ∃ s tl, g = Seg.key s :: tl ∧ (∀ x ∈ tl, x.isIdx = true) ∧
            ¬ '"' ∈ s ∧ ¬ '[' ∈ s ∧ ¬ '\n' ∈ s := by
        intro g hgm
        obtain ⟨s, tl, hge, htl⟩ := group_shape_key _ hshape g hgm
        have hsk : Seg.key s ∈ Seg.key s0 :: rest := by
          rw [← group_flatten (Seg.key s0 :: rest)]
          rw [List.mem_flatten]
          exact ⟨g, hgm, by rw [hge]; exact List.mem_cons_self _ _⟩
        have hc := hkeys (Seg.key s) hsk
        simp only [segCharsOK, Bool.and_eq_true, decide_eq_true_eq] at hc
        exact ⟨s, tl, hge, htl, hc.1.1, hc.1.2, hc.2⟩
      rw [jsonpath_key_headed]
      have hsplit : split_no_double_quotes
          (joinDot (['$'] ::
            (group_ints_with_preceding_string (Seg.key s0 :: rest)).map
              renderGroup)) '.' =
          ['$'] :: (group_ints_with_preceding_string (Seg.key s0 :: rest)).map
            renderGroup := by
        refine splitNQ_joinSep (by decide) _ (by simp) ?_
        intro pt hpt
        rcases List.mem_cons.mp hpt with hpt | hpt
        · subst hpt; decide
        · exact parts_scan_groups _
            (fun g hg => by
              obtain ⟨s, tl, hge, _, hq, _, hn⟩ := hkeyinfo g hg
              exact ⟨s, tl, hge, hq, hn⟩) pt hpt
      obtain ⟨t, ht⟩ := joinSep_cons_head '.' '$' []
        ((group_ints_with_preceding_string (Seg.key s0 :: rest)).map renderGroup)
      have hres := split_query_eval_nolead _
        (by show (joinSep '.' _).head? = some '$'; rw [ht]; rfl)
        ['$'] _ hsplit (by decide) _
        (mapM_parse_groups _ (fun g hg => by
          obtain ⟨s, tl, hge, htl, hq, hb, _⟩ := hkeyinfo g hg
          exact ⟨s, tl, hge, htl, hq, hb⟩))
      rw [hres, group_flatten]
    | idx i =>
      have htw : rest.takeWhile Seg.isIdx = [] := by
        have hts : (Seg.idx i :: rest).takeWhile Seg.isIdx =
            Seg.idx i :: rest.takeWhile Seg.isIdx := by
          rw [List.takeWhile_cons,
            if_pos (show Seg.isIdx (Seg.idx i) = true from rfl)]
        rw [hts, List.length_cons] at hlead
        have := Nat.le_zero.mp (Nat.succ_le_succ_iff.mp hlead)
        exact List.length_eq_zero.mp this
      have hdw : rest.dropWhile Seg.isIdx = rest :=
        dropWhile_of_takeWhile_nil htw
      have hshape' : rest = [] ∨ ∃ s r, rest = Seg.key s :: r := by
        cases hr : rest with
        | nil => exact Or.inl rfl
        | cons y ys =>
          rw [hr] at htw
          rw [List.takeWhile_cons] at htw
          by_cases hy : Seg.isIdx y = true
          · rw [if_pos hy] at htw; cases htw
          · match y, hy with
            | Seg.key s, _ => exact Or.inr ⟨s, ys, rfl⟩
      have hkeyinfo : ∀ g ∈ group_ints_with_preceding_string rest,
          ∃ s tl, g = Seg.key s :: tl ∧ (∀ x ∈ tl, x.isIdx = true) ∧
            ¬ '"' ∈ s ∧ ¬ '[' ∈ s ∧ ¬ '\n' ∈ s := by
        intro g hgm
        obtain ⟨s, tl, hge, htl⟩ := group_shape_key _ hshape' g hgm
        have hsk : Seg.key s ∈ rest := by
          rw [← group_flatten rest]
          rw [List.mem_flatten]
          exact ⟨g, hgm, by rw [hge]; exact List.mem_cons_self _ _⟩
        have hc := hkeys (Seg.key s) (List.mem_cons_of_mem _ hsk)
        simp only [segCharsOK, Bool.and_eq_true, decide_eq_true_eq] at hc
        exact ⟨s, tl, hge, htl, hc.1.1, hc.1.2, hc.2⟩
      rw [jsonpath_idx_headed, htw, hdw]
      have hp0form : '$' :: segBrackets [Seg.idx i] =
          '$' :: '[' :: (intChars i ++ [']']) := by
        simp only [segBrackets]
        rw [show List.filterMap Seg.idxVal? [Seg.idx i] = [i] from rfl]
        simp
      have hsplit : split_no_double_quotes
          (joinDot (('$' :: segBrackets [Seg.idx i]) ::
            (group_ints_with_preceding_string rest).map renderGroup)) '.' =
          ('$' :: segBrackets [Seg.idx i]) ::
            (group_ints_with_preceding_string rest).map renderGroup := by
        refine splitNQ_joinSep (by decide) _ (by simp) ?_
        intro pt hpt
        rcases List.mem_cons.mp hpt with hpt | hpt
        · subst hpt; exact leadPart_scan _
        · exact parts_scan_groups _
            (fun g hg => by
              obtain ⟨s, tl, hge, _, hq, _, hn⟩ := hkeyinfo g hg
              exact ⟨s, tl, hge, hq, hn⟩) pt hpt
      obtain ⟨t, ht⟩ := joinSep_cons_head '.' '$' (segBrackets [Seg.idx i])
        ((group_ints_with_preceding_string rest).map renderGroup)
      have hres := split_query_eval_lead _
        (by show (joinSep '.' _).head? = some '$'; rw [ht]; rfl)
        ('$' :: segBrackets [Seg.idx i]) _ hsplit
        (by rw [hp0form]; rfl) i
        (by rw [hp0form]
            show pyParseInt ((intChars i ++ [']']).dropLast) = some i
            rw [List.dropLast_concat, pyParseInt_intChars]) _
        (mapM_parse_groups _ (fun g hg => by
          obtain ⟨s, tl, hge, htl, hq, hb, _⟩ := hkeyinfo g hg
          exact ⟨s, tl, hge, htl, hq, hb⟩))
      rw [hres, group_flatten]

/-! ## Claim C1 -/

/-- Claim C1, counterexample: the round-trip fails as stated.  For the
logical path `(1, 2, "a")` — two leading integer indices — the encoder
produces the canonical string `$[1][2]."a"`, but `split_query` applies
`int(path[0][2:-1])` to the first dot part `$[1][2]`, i.e. `int("1][2")`,
which raises `ValueError` instead of returning the original tuple.
A second failure mode: for the path `("a\nb", "c")` the encoder yields
`$."a\nb"."c"`, whose first quoted span holds a newline; the splitter
regex `\".*?\"` cannot match it, the structural dot after it goes
unprotected inside the accidental span `"."`, and decoding returns the
single mangled key `a\nb"."c` instead of the original two keys. -/
theorem c1_roundtrip_counterexample :
    (jsonpathOfSegs [Seg.idx 1, Seg.idx 2, Seg.key (strL "a")] =
      strL "$[1][2].\"a\"" ∧
    split_query (.str (jsonpathOfSegs [Seg.idx 1, Seg.idx 2, Seg.key (strL "a")])) =
      .error .valueError ∧
    split_query (.str (jsonpathOfSegs [Seg.idx 1, Seg.idx 2, Seg.key (strL "a")])) ≠
      .ok [Seg.idx 1, Seg.idx 2, Seg.key (strL "a")]) ∧
    (jsonpathOfSegs [Seg.key (strL "a\nb"), Seg.key (strL "c")] =
      strL "$.\"a\nb\".\"c\"" ∧
    split_query (.str (jsonpathOfSegs [Seg.key (strL "a\nb"), Seg.key (strL "c")])) =
      .ok [Seg.key (strL "a\nb\".\"c")] ∧
    split_query (.str (jsonpathOfSegs [Seg.key (strL "a\nb"), Seg.key (strL "c")])) ≠
      .ok [Seg.key (strL "a\nb"), Seg.key (strL "c")]) := by
  refine ⟨⟨by decide, by decide, by decide⟩, by decide, by decide, by decide⟩

/-- Claim C1 (amended): for every logical path with at most one integer
index before its first string key, and whose keys contain neither a
double quote, nor an opening bracket, nor a newline (a newline-bearing
key defeats the splitter's regex, whose `.` cannot cross lines),
decoding the canonical path string produced by the tuple encoder of
`_query_tuple2jsonpath` / `build_index_paths` yields back exactly the
original segment sequence: `split_query (jsonpathOfSegs p) = p`. -/
theorem c1_roundtrip_amended (p : List Seg) (h : pathOK p) :
    split_query (PathArg.str (jsonpathOfSegs p)) = .ok p :=
  roundtrip_of_pathOK p h

/-- Claim C1, witness: the amended round-trip at the concrete path
`(-3, "a.b", 2, 10, "", "c")`, which exercises a negative leading index,
a dotted key, consecutive indices and an empty key. -/
theorem c1_roundtrip_witness :
    pathOK [Seg.idx (-3), Seg.key (strL "a.b"), Seg.idx 2, Seg.idx 10,
      Seg.key (strL ""), Seg.key (strL "c")] ∧
    split_query (PathArg.str (jsonpathOfSegs
      [Seg.idx (-3), Seg.key (strL "a.b"), Seg.idx 2, Seg.idx 10,
        Seg.key (strL ""), Seg.key (strL "c")])) =
      .ok [Seg.idx (-3), Seg.key (strL "a.b"), Seg.idx 2, Seg.idx 10,
        Seg.key (strL ""), Seg.key (strL "c")] :=
  ⟨by decide, c1_roundtrip_amended _ (by decide)⟩

/-! ## Claim C5 -/

/-- Claim C5: `_query2sql` with zero positional and zero keyword
arguments compiles, without raising, to the tautological always-true
filter `1 = 1` with an empty binding list — whatever the state of the
token supply. -/
theorem c5_empty_filter (n : Nat) :
    query2sql [] [] n = .ok (strL "1 = 1", []) := rfl

/-! ## Claim C7 -/

/-- Claim C7: `Query.__invert__` does not raise on an unset query.
Contrary to the specified behavior, inverting a freshly constructed
(unset) `Query` succeeds and produces the garbage filter text
`( NOT None )` (the f-string renders the unset `_query`, `None`);
on a set operand it wraps the sub-expression as `( NOT <expr> )`. -/
theorem c7_invert_unset_no_error :
    (q_invert Query.init).query = some (strL "( NOT None )") ∧
    (∀ s : List Char,
      (q_invert ⟨[], [], some s, none⟩).query =
        some (strL "( NOT " ++ s ++ strL " )")) :=
  ⟨rfl, fun s => rfl⟩

/-! ## Claim C3 -/

set_option maxRecDepth 100000 in
/-- Claim C3, counterexample: the index name is not a function of the
path set — permuting the order of the canonical paths `$."a"` and
`$."b"` changes the derived name, because the source hashes
`"=".join(paths)` without sorting. -/
theorem c3_index_name_counterexample :
    create_index_name (strL "items") [strL "$.\"a\"", strL "$.\"b\""] false ≠
      create_index_name (strL "items") [strL "$.\"b\"", strL "$.\"a\""] false := by
  decide

/-- Claim C3 (amended): the derived index name is a fixed prefix plus
the first eight hex digits of the MD5 of the `=`-joined canonical paths
in the order given (not sorted), with the `_UNIQUE` suffix when
requested; it is a pure function of the path sequence and flag (hence
identical across process runs), and `create_index` and `drop_index`
derive exactly the same name — but permuting the path order changes it. -/
theorem c3_index_name_amended :
    ∀ (table : List Char) (paths : List (List Char)) (unique : Bool),
      create_index_name table paths unique = drop_index_name table paths unique ∧
      create_index_name table paths unique =
        strL "ix_" ++ table ++ ['_'] ++
          (md5Hex (asciiBytes (joinEq paths))).take 8 ++
          (if unique then strL "_UNIQUE" else []) :=
  fun _ _ _ => ⟨rfl, rfl⟩

/-! ## Claim C10 -/

/-- Claim C10: the table name used in SQL is the subsequence of the
constructor's `table` argument consisting exactly of its alphanumeric
and underscore characters, in order and multiplicity; every other
character is silently deleted, and an input with no such character
yields the empty table name. -/
theorem c10_table_sanitization (t : List Char) :
    (table_name t).Sublist t ∧
    (∀ c, c ∈ table_name t ↔ c ∈ t ∧ (c = '_' || pyIsAlnum c) = true) ∧
    (∀ c, (table_name t).count c =
      if (c = '_' || pyIsAlnum c) = true then t.count c else 0) ∧
    (table_name t = [] ↔ ∀ c ∈ t, (c = '_' || pyIsAlnum c) = false) := by
  refine ⟨List.filter_sublist _, fun c => List.mem_filter, fun c => ?_, ?_⟩
  · by_cases hc : (c = '_' || pyIsAlnum c) = true
    · rw [if_pos hc]
      exact List.count_filter hc
    · rw [if_neg hc, table_name]
      rw [List.count_eq_zero]
      intro hm
      exact hc (List.mem_filter.mp hm).2
  · rw [table_name, List.filter_eq_nil_iff]
    constructor
    · intro h c hm
      exact Bool.eq_false_iff.mpr (h c hm)
    · intro h c hm
      exact Bool.eq_false_iff.mp (h c hm)

/-! ## Claim C6 -/

/-- Claim C6, counterexample: the point lookups do not distinguish a
missing rowid from a row storing the JSON value `null`.  With one row
`(1, "null")`, `get_by_rowid` (decode mode) returns Python `None` and
`__getitem__` raises `IndexError` — exactly the outcomes for the same
rowid in an empty table. -/
theorem c6_null_rowid_counterexample :
    get_by_rowid loadsNullFragment [(1, strL "null")] 1 true =
      get_by_rowid loadsNullFragment [] 1 true ∧
    getitem_rowid loadsNullFragment [(1, strL "null")] 1 =
      getitem_rowid loadsNullFragment [] 1 :=
  ⟨rfl, rfl⟩

/-- Claim C6 (amended): for a row storing the JSON text `null`, the
decode-mode point lookups produce exactly the not-found outcomes —
`get_by_rowid` returns `None` and `__getitem__` raises `IndexError` —
so the two cases are not distinguishable through them; only the raw
mode (`_load=False`) distinguishes, returning the text `null` for the
existing row where a missing rowid yields `None`. -/
theorem c6_null_rowid_amended (loads : List Char → PyVal)
    (table : List (Nat × List Char)) (rid r0 : Nat)
    (hload : loads (strL "null") = .pynone)
    (hfetch : fetchRow table rid = some (r0, strL "null")) :
    get_by_rowid loads table rid true = .pynone ∧
    getitem_rowid loads table rid = .error .indexError ∧
    get_by_rowid loads table rid false = .pystr (strL "null") ∧
    (∀ (loads' : List Char → PyVal) (table' : List (Nat × List Char)) rid',
      fetchRow table' rid' = none → get_by_rowid loads' table' rid' false = .pynone) ∧
    PyVal.pystr (strL "null") ≠ PyVal.pynone := by
  have h1 : get_by_rowid loads table rid true = .pynone := by
    rw [get_by_rowid, hfetch]
    simp only [Bool.not_true, Bool.false_eq_true, if_false, hload]
  refine ⟨h1, ?_, ?_, ?_, ?_⟩
  · rw [getitem_rowid, h1]
    rfl
  · rw [get_by_rowid, hfetch]
    rfl
  · intro loads' table' rid' hnone
    rw [get_by_rowid, hnone]
  · intro h
    cases h

/-- Claim C6, witness: the amended statement at a concrete one-row
table holding the JSON text `null` at rowid 1, with the modelled
`json.loads` fragment. -/
theorem c6_null_rowid_witness :
    get_by_rowid loadsNullFragment [(1, strL "null")] 1 true = .pynone ∧
    getitem_rowid loadsNullFragment [(1, strL "null")] 1 = .error .indexError ∧
    get_by_rowid loadsNullFragment [(1, strL "null")] 1 false =
      .pystr (strL "null") := by
  have h := c6_null_rowid_amended loadsNullFragment [(1, strL "null")] 1 1
    (by rw [loadsNullFragment, if_pos rfl]) rfl
  exact ⟨h.1, h.2.1, h.2.2.1⟩

/-! ## Claim C8 -/

/-- `Except`'s bind on a failure short-circuits. -/
theorem exceptErrBind {ε α β : Type} (e : ε) (f : α → Except ε β) :
    (Except.error e >>= f : Except ε β) = .error e := rfl

/-- `mapM` fails immediately when the function fails on the head. -/
theorem mapM_cons_error {α β : Type} {f : α → Except PyErr β} {x : α}
    {e : PyErr} (h : f x = .error e) (l : List α) :
    (x :: l).mapM f = .error e := by
  rw [List.mapM_cons, h]
  rfl

/-- A set query item makes the order-by item compiler raise. -/
theorem orderby_pair1_set_query (qs : QState)
    (h : pyTruthy qs.query = true) :
    orderby_pair1 (.query qs) = .error .assignedQuery := by
  rw [orderby_pair1]
  dsimp only
  rw [if_pos h]
  rfl

/-- Claim C8: `build_orderby_pairs` rejects — with `ValueError`-class
exceptions — an order specification containing a `Query` item that is
already set (`AssignedQueryError`, a `ValueError` subclass), and one
containing an empty tuple (`ValueError`), in each case before producing
any `(path, direction)` pair. -/
theorem c8_orderby_rejections :
    (∀ (qs : QState) (rest : List OrderItem), pyTruthy qs.query = true →
      build_orderby_pairs (.list (.query qs :: rest)) = .error .assignedQuery ∧
      PyErr.assignedQuery.isValueErrorClass = true) ∧
    (∀ rest : List OrderItem,
      build_orderby_pairs (.list (.tup [] :: rest)) = .error .valueError ∧
      PyErr.valueError.isValueErrorClass = true) := by
  constructor
  · intro qs rest h
    refine ⟨?_, rfl⟩
    rw [build_orderby_pairs]
    rw [if_neg (by simp [OrderBy.falsy])]
    exact mapM_cons_error (orderby_pair1_set_query qs h) rest
  · intro rest
    refine ⟨?_, rfl⟩
    rw [build_orderby_pairs]
    rw [if_neg (by simp [OrderBy.falsy])]
    exact mapM_cons_error
      (show orderby_pair1 (.tup []) = .error .valueError from rfl) rest

/-- Claim C8, witness: the rejections at concrete inputs — a set query
(`Query().a == 1`, built through the real comparison operator) used as
an order specification, and a specification containing an empty tuple. -/
theorem c8_orderby_rejections_witness :
    build_orderby_pairs
      (.list [.query (q_from_equality (strL "$.\"a\"") (JVal.int 1) 0)]) =
      .error .assignedQuery ∧
    build_orderby_pairs (.list [.tup [], .str (strL "b")]) =
      .error .valueError :=
  ⟨(c8_orderby_rejections.1 _ [] (by decide)).1,
    (c8_orderby_rejections.2 [.str (strL "b")]).1⟩

/-! ## Claim C9 -/

/-- Overwriting a valid heap cell is visible through the same
reference. -/
theorem QHeap.get_set (h : QHeap) (r : Nat) (q : QState)
    (hr : r < h.cells.length) : (h.set r q).get r = q := by
  show (h.cells.set r q).getD r Query.init = q
  rw [List.getD_eq_getElem?_getD, List.getElem?_set_self]
  · rfl
  · exact hr

/-- Claim C9: every builder operation mutates the receiver in place and
returns the receiver itself, never a fresh node.  On the heap
embedding: attribute access, item access, comparison, the boolean
combinators and inversion each return exactly the receiver's reference,
allocate nothing, and leave the transformed state visible through that
same reference — so after `c = a & b`, `a` *is* `c` and now carries the
combined filter text and merged token map. -/
theorem c9_builder_aliasing (h : QHeap) (r : Nat) (hr : r < h.cells.length) :
    (∀ a, (h_getattr h r a).2 = r ∧
      (h_getattr h r a).1.cells.length = h.cells.length ∧
      (h_getattr h r a).1.get r = q_getattr (h.get r) a) ∧
    (∀ it, (h_getitem h r it).2 = r ∧
      (h_getitem h r it).1.cells.length = h.cells.length ∧
      (h_getitem h r it).1.get r = q_getitem (h.get r) it) ∧
    (∀ sym v qc, q_compare (h.get r) sym v h.ctr = .ok qc →
      h_compare h r sym v = .ok ({ h.set r qc with ctr := h.ctr + 1 }, r) ∧
      (({ h.set r qc with ctr := h.ctr + 1 } : QHeap).get r = qc)) ∧
    (∀ r₂ comb qc, q_logic (h.get r) (h.get r₂) comb = .ok qc →
      h_logic h r r₂ comb = .ok (h.set r qc, r) ∧ (h.set r qc).get r = qc) ∧
    ((h_invert h r).2 = r ∧
      (h_invert h r).1.cells.length = h.cells.length ∧
      (h_invert h r).1.get r = q_invert (h.get r)) := by
  refine ⟨?_, ?_, ?_, ?_, ?_⟩
  · intro a
    refine ⟨rfl, by show (h.cells.set r _).length = _; rw [List.length_set], ?_⟩
    exact QHeap.get_set h r _ hr
  · intro it
    refine ⟨rfl, by show (h.cells.set r _).length = _; rw [List.length_set], ?_⟩
    exact QHeap.get_set h r _ hr
  · intro sym v qc hq
    constructor
    · rw [h_compare, hq]
      rfl
    · show (h.set r qc).get r = qc
      exact QHeap.get_set h r _ hr
  · intro r₂ comb qc hq
    constructor
    · rw [h_logic, hq]
      rfl
    · exact QHeap.get_set h r _ hr
  · refine ⟨rfl, by show (h.cells.set r _).length = _; rw [List.length_set], ?_⟩
    exact QHeap.get_set h r _ hr

/-- Claim C9, witness: the aliasing facts at a concrete heap — one
fresh query for attribute access, and two set queries combined with
`&`, where the left receiver's reference is returned carrying the
combined text and merged token map. -/
theorem c9_builder_aliasing_witness :
    (h_getattr ⟨[Query.init], 0⟩ 0 (strL "key")).2 = 0 ∧
    (h_getattr ⟨[Query.init], 0⟩ 0 (strL "key")).1.get 0 =
      q_getattr (QHeap.get ⟨[Query.init], 0⟩ 0) (strL "key") ∧
    h_logic ⟨[q_from_equality (strL "$.\"a\"") (JVal.int 1) 0,
        q_from_equality (strL "$.\"b\"") (JVal.int 2) 1], 2⟩ 0 1 (strL "AND") =
      .ok (QHeap.set ⟨[q_from_equality (strL "$.\"a\"") (JVal.int 1) 0,
          q_from_equality (strL "$.\"b\"") (JVal.int 2) 1], 2⟩ 0
        ⟨[], [(randkey 0, JVal.int 1), (randkey 1, JVal.int 2)],
          some (strL "( ( JSON_EXTRACT(data, '$.\"a\"') = !>>k0<<! ) AND ( JSON_EXTRACT(data, '$.\"b\"') = !>>k1<<! ) )"),
          none⟩, 0) := by
  have h1 := c9_builder_aliasing ⟨[Query.init], 0⟩ 0 (by decide)
  have h2 := c9_builder_aliasing ⟨[q_from_equality (strL "$.\"a\"") (JVal.int 1) 0,
    q_from_equality (strL "$.\"b\"") (JVal.int 2) 1], 2⟩ 0 (by decide)
  refine ⟨(h1.1 (strL "key")).1, (h1.1 (strL "key")).2.2, ?_⟩
  exact (h2.2.2.2.1 1 (strL "AND") _ (by decide)).1

/-! ## Towards claim C4: the token scanner on clean text -/

/-- Distinct counters mint distinct tokens. -/
theorem randkey_injective {m n : Nat} (h : randkey m = randkey n) : m = n := by
  have h2 : natChars m ++ ['<', '<', '!'] = natChars n ++ ['<', '<', '!'] := by
    simpa [randkey, tokenBody] using h
  have hlen : (natChars m).length = (natChars n).length := by
    have := congrArg List.length h2
    simpa using this
  have h1 : natChars m = natChars n := (List.append_inj h2 hlen).1
  have h3 := pyParseNat_natChars m
  rw [h1, pyParseNat_natChars n] at h3
  exact (Option.some.inj h3).symm

/-- A token-body character is never the closer's `<` nor a newline. -/
theorem tokenBody_chars (n : Nat) : ∀ c ∈ tokenBody n, c ≠ '<' ∧ c ≠ '\n' := by
  intro c hc
  rcases List.mem_cons.mp hc with h | h
  · subst h; exact ⟨by decide, by decide⟩
  · have hd := natChars_digits n c h
    refine ⟨fun hc' => ?_, fun hc' => ?_⟩ <;> subst hc' <;> revert hd <;> decide

/-- `closeScan` on a closer-free body followed by the closer finds
exactly that body. -/
theorem closeScan_of_body (b t : List Char)
    (hb : ∀ c ∈ b, c ≠ '<' ∧ c ≠ '\n') :
    closeScan (b ++ '<' :: '<' :: '!' :: t) = some (b, t) := by
  induction b with
  | nil =>
    show closeScan ('<' :: '<' :: '!' :: t) = some ([], t)
    rfl
  | cons c r ih =>
    have hc := hb c (List.mem_cons_self _ _)
    have h1 : ¬ (c = '<' ∧ (r ++ '<' :: '<' :: '!' :: t).take 2 = ['<', '!']) :=
      fun hh => hc.1 hh.1
    rw [List.cons_append]
    simp only [closeScan]
    rw [if_neg h1, if_neg hc.2, ih (fun x hx => hb x (List.mem_cons_of_mem _ hx))]
    rfl

/-- The scanner consumes a minted token as one match: it substitutes a
single `?` and records the token. -/
theorem scanSub_token (n : Nat) (t : List Char) :
    scanSub (randkey n ++ t) =
      ('?' :: (scanSub t).1, randkey n :: (scanSub t).2) := by
  have hr : randkey n ++ t =
      '!' :: '>' :: '>' :: (tokenBody n ++ ('<' :: '<' :: '!' :: t)) := by
    simp [randkey, List.append_assoc]
  rw [hr, scanSub_unfold]
  have hdrop : ('>' :: '>' :: (tokenBody n ++ ('<' :: '<' :: '!' :: t))).drop 2
      = tokenBody n ++ ('<' :: '<' :: '!' :: t) := rfl
  rw [if_pos ⟨rfl, rfl⟩, hdrop, closeScan_of_body _ _ (tokenBody_chars n)]
  rfl

/-- Taking two characters of an append stays inside a prefix that holds
at least two. -/
theorem take_two_of_append {r : List Char} (t : List Char) (h : 2 ≤ r.length) :
    (r ++ t).take 2 = r.take 2 := by
  cases r with
  | nil =>
    simp only [List.length_nil] at h
    omega
  | cons a r1 =>
    cases r1 with
    | nil =>
      simp only [List.length_cons, List.length_nil] at h
      omega
    | cons b r2 => rfl

/-- The scanner passes over a clean literal without starting a match. -/
theorem scanSub_lit (s : List Char) (hs : cleanLit s = true) (t : List Char) :
    scanSub (s ++ t) = (s ++ (scanSub t).1, (scanSub t).2) := by
  induction s with
  | nil => simp
  | cons c r ih =>
    simp only [cleanLit, Bool.and_eq_true] at hs
    obtain ⟨hc, hr⟩ := hs
    rw [List.cons_append, scanSub_unfold]
    by_cases hbang : c = '!'
    · rw [if_pos hbang] at hc
      rw [Bool.and_eq_true] at hc
      have hlen : 2 ≤ r.length := by simpa using hc.1
      have hne : r.take 2 ≠ ['>', '>'] := by simpa using hc.2
      have hcond : ¬ (c = '!' ∧ (r ++ t).take 2 = ['>', '>']) := by
        intro hh
        exact hne (by rw [← take_two_of_append t hlen]; exact hh.2)
      rw [if_neg hcond, ih hr]
      rfl
    · have hcond : ¬ (c = '!' ∧ (r ++ t).take 2 = ['>', '>']) :=
        fun hh => hbang hh.1
      rw [if_neg hcond, ih hr]
      rfl

/-- Cleanliness of literals is closed under append. -/
theorem cleanLit_append {a b : List Char} (ha : cleanLit a = true)
    (hb : cleanLit b = true) : cleanLit (a ++ b) = true := by
  induction a with
  | nil => simpa using hb
  | cons c r ih =>
    simp only [cleanLit, Bool.and_eq_true] at ha
    obtain ⟨hc, hr⟩ := ha
    rw [List.cons_append]
    simp only [cleanLit, Bool.and_eq_true]
    refine ⟨?_, ih hr⟩
    by_cases hbang : c = '!'
    · rw [if_pos hbang] at hc ⊢
      rw [Bool.and_eq_true] at hc
      have hlen : 2 ≤ r.length := by simpa using hc.1
      have hne : r.take 2 ≠ ['>', '>'] := by simpa using hc.2
      have h1 : 2 ≤ (r ++ b).length := by
        rw [List.length_append]; omega
      have h2 : (r ++ b).take 2 ≠ ['>', '>'] := by
        rw [take_two_of_append b hlen]; exact hne
      simp only [Bool.and_eq_true, decide_eq_true_eq, Bool.not_eq_true',
        decide_eq_false_iff_not]
      exact ⟨h1, h2⟩
    · rw [if_neg hbang]

/-- `renderC` distributes over append. -/
theorem renderC_append (a b : List Chunk) :
    renderC (a ++ b) = renderC a ++ renderC b := by
  induction a with
  | nil => rfl
  | cons ch r ih => cases ch <;> simp [renderC, ih, List.append_assoc]

/-- `renderSubC` distributes over append. -/
theorem renderSubC_append (a b : List Chunk) :
    renderSubC (a ++ b) = renderSubC a ++ renderSubC b := by
  induction a with
  | nil => rfl
  | cons ch r ih => cases ch <;> simp [renderSubC, ih, List.append_assoc]

/-- `chunkVals` distributes over append. -/
theorem chunkVals_append (a b : List Chunk) :
    chunkVals (a ++ b) = chunkVals a ++ chunkVals b := by
  induction a with
  | nil => rfl
  | cons ch r ih => cases ch <;> simp [chunkVals, ih]

/-- Scanning the rendering of well-formed chunks substitutes exactly
the token chunks, in order. -/
theorem renderC_scanSub (lo hi : Nat) (chunks : List Chunk)
    (h : ∀ ch ∈ chunks, ChunkOK lo hi ch) :
    scanSub (renderC chunks) = (renderSubC chunks, chunkToks chunks) := by
  induction chunks with
  | nil => rfl
  | cons ch r ih =>
    have hr := ih (fun x hx => h x (List.mem_cons_of_mem _ hx))
    cases ch with
    | lit s =>
      have hok : cleanLit s = true ∧ cpCount s false = 0 ∧
          cpState s false = false := h _ (List.mem_cons_self _ _)
      show scanSub (s ++ renderC r) = _
      rw [scanSub_lit s hok.1, hr]
      rfl
    | tok n v =>
      show scanSub (randkey n ++ renderC r) = _
      rw [scanSub_token, hr]
      rfl

/-- The parameter-counting automaton splits over append. -/
theorem cpCount_append (a b : List Char) (st : Bool) :
    cpCount (a ++ b) st = cpCount a st + cpCount b (cpState a st) := by
  induction a generalizing st with
  | nil => simp [cpCount, cpState]
  | cons c r ih =>
    simp only [List.cons_append, cpCount, cpState, List.append_eq]
    by_cases hq : c = '\''
    · rw [if_pos hq, if_pos hq, if_pos hq]
      exact ih (!st)
    · rw [if_neg hq, if_neg hq, if_neg hq]
      by_cases hp : c = '?' ∧ st = false
      · rw [if_pos hp, if_pos hp, ih st]
        omega
      · rw [if_neg hp, if_neg hp]
        exact ih st

/-- The literal state after an append composes. -/
theorem cpState_append (a b : List Char) (st : Bool) :
    cpState (a ++ b) st = cpState b (cpState a st) := by
  induction a generalizing st with
  | nil => rfl
  | cons c r ih =>
    simp only [List.cons_append, cpState]
    exact ih _

/-- Inside a single-quoted literal, `doubleSq` output counts no
parameter and preserves the in-literal state (embedded quotes are
doubled, hence toggle twice). -/
theorem doubleSq_automaton (s : List Char) :
    cpCount (doubleSq s) true = 0 ∧ cpState (doubleSq s) true = true := by
  induction s with
  | nil => exact ⟨rfl, rfl⟩
  | cons c r ih =>
    by_cases hq : c = '\''
    · subst hq
      show cpCount ('\'' :: '\'' :: doubleSq r) true = 0 ∧
        cpState ('\'' :: '\'' :: doubleSq r) true = true
      simpa [cpCount, cpState] using ih
    · have hd : doubleSq (c :: r) = c :: doubleSq r := by
        simp only [doubleSq, if_neg hq]
      rw [hd]
      have hp : ¬ (c = '?' ∧ (true : Bool) = false) := fun hh => by cases hh.2
      simp only [cpCount, cpState, if_neg hq, if_neg hp]
      exact ih

/-- A quoted SQL string literal contributes no bind parameter and
leaves the literal automaton balanced, whatever the quoted text. -/
theorem sqlite_quote_automaton (s : List Char) :
    cpCount (sqlite_quote s) false = 0 ∧
    cpState (sqlite_quote s) false = false := by
  have h := doubleSq_automaton s
  constructor
  · show cpCount (doubleSq s ++ ['\'']) true = 0
    rw [cpCount_append, h.1, h.2]
    rfl
  · show cpState (doubleSq s ++ ['\'']) true = false
    rw [cpState_append, h.2]
    rfl

/-- The substituted text of chunks whose literals are automaton-neutral
reads exactly one bind parameter per bound value. -/
theorem countParams_chunks (chunks : List Chunk)
    (h : ∀ s, Chunk.lit s ∈ chunks →
      cpCount s false = 0 ∧ cpState s false = false) :
    cpCount (renderSubC chunks) false = (chunkVals chunks).length ∧
    cpState (renderSubC chunks) false = false := by
  induction chunks with
  | nil => exact ⟨rfl, rfl⟩
  | cons ch r ih =>
    have hr := ih (fun s hs => h s (List.mem_cons_of_mem _ hs))
    cases ch with
    | lit s =>
      have hs := h s (List.mem_cons_self _ _)
      refine ⟨?_, ?_⟩
      · show cpCount (s ++ renderSubC r) false = (chunkVals r).length
        rw [cpCount_append, hs.1, hs.2, hr.1]
        omega
      · show cpState (s ++ renderSubC r) false = false
        rw [cpState_append, hs.2, hr.2]
    | tok n v =>
      refine ⟨?_, ?_⟩
      · show 1 + cpCount (renderSubC r) false = (chunkVals r).length + 1
        rw [hr.1]
        omega
      · show cpState (renderSubC r) false = false
        exact hr.2

/-! ## Towards claim C4: the token-map algebra -/

/-- Inserting an absent key appends the pair. -/
theorem pyDictInsert_notmem (d : List (List Char × JVal)) (k : List Char)
    (v : JVal) (h : ∀ p ∈ d, p.1 ≠ k) : pyDictInsert d k v = d ++ [(k, v)] := by
  rw [pyDictInsert, if_neg]
  intro hc
  rw [List.any_eq_true] at hc
  obtain ⟨p, hp, he⟩ := hc
  exact h p hp (by simpa using he)

/-- Merging a token map whose keys are fresh and distinct is
concatenation. -/
theorem pyDictMerge_disjoint :
    ∀ (d2 d1 : List (List Char × JVal)),
      (∀ p ∈ d2, ∀ q ∈ d1, q.1 ≠ p.1) → (d2.map Prod.fst).Nodup →
      pyDictMerge d1 d2 = d1 ++ d2 := by
  intro d2
  induction d2 with
  | nil => intro d1 _ _; simp [pyDictMerge]
  | cons p d2' ih =>
    intro d1 hdisj hnd
    simp only [List.map_cons, List.nodup_cons] at hnd
    have hstep : pyDictInsert d1 p.1 p.2 = d1 ++ [(p.1, p.2)] :=
      pyDictInsert_notmem d1 p.1 p.2
        (fun q hq => hdisj p (List.mem_cons_self _ _) q hq)
    have hdisj' : ∀ x ∈ d2', ∀ q ∈ d1 ++ [(p.1, p.2)], q.1 ≠ x.1 := by
      intro x hx q hq
      rcases List.mem_append.mp hq with hq1 | hq2
      · exact hdisj x (List.mem_cons_of_mem _ hx) q hq1
      · have hqe : q = (p.1, p.2) := by simpa using hq2
        subst hqe
        intro he
        apply hnd.1
        rw [he]
        exact List.mem_map_of_mem Prod.fst hx
    show pyDictMerge (pyDictInsert d1 p.1 p.2) d2' = d1 ++ p :: d2'
    rw [hstep, ih _ hdisj' hnd.2]
    simp

/-- A key found on the left of an append is found in the append. -/
theorem pyLookup_append_left (d1 d2 : List (List Char × JVal)) (k : List Char)
    (v : JVal) (h : pyLookup d1 k = some v) :
    pyLookup (d1 ++ d2) k = some v := by
  induction d1 with
  | nil => exact absurd h (by simp [pyLookup])
  | cons p r ih =>
    by_cases hk : p.1 = k
    · have hf : decide (p.1 = k) = true := by simp [hk]
      rw [pyLookup, List.cons_append,
        List.find?_cons_of_pos (p := fun q : List Char × JVal => decide (q.1 = k)) _ hf]
      rw [pyLookup, List.find?_cons_of_pos (p := fun q : List Char × JVal => decide (q.1 = k)) _ hf] at h
      exact h
    · have hf : ¬ decide (p.1 = k) = true := by simp [hk]
      rw [pyLookup, List.cons_append,
        List.find?_cons_of_neg (p := fun q : List Char × JVal => decide (q.1 = k)) _ hf]
      rw [pyLookup, List.find?_cons_of_neg (p := fun q : List Char × JVal => decide (q.1 = k)) _ hf] at h
      exact ih h

/-- A key absent on the left of an append defers to the right. -/
theorem pyLookup_append_right (d1 d2 : List (List Char × JVal)) (k : List Char)
    (h : ∀ p ∈ d1, p.1 ≠ k) : pyLookup (d1 ++ d2) k = pyLookup d2 k := by
  induction d1 with
  | nil => rfl
  | cons p r ih =>
    have hk : ¬ p.1 = k := h p (List.mem_cons_self _ _)
    have hf : ¬ decide (p.1 = k) = true := by simp [hk]
    rw [pyLookup, List.cons_append,
      List.find?_cons_of_neg (p := fun q : List Char × JVal => decide (q.1 = k)) _ hf]
    exact ih (fun q hq => h q (List.mem_cons_of_mem _ hq))

/-! ## Towards claim C4: invariant plumbing -/

/-- Introduction form for literal-chunk well-formedness. -/
theorem litOK_of (lo hi : Nat) (s : List Char) (h1 : cleanLit s = true)
    (h2 : cpCount s false = 0) (h3 : cpState s false = false) :
    ChunkOK lo hi (Chunk.lit s) := ⟨h1, h2, h3⟩

/-- Elimination form for literal-chunk well-formedness. -/
theorem litOK_parts {lo hi : Nat} {s : List Char}
    (h : ChunkOK lo hi (Chunk.lit s)) :
    cleanLit s = true ∧ cpCount s false = 0 ∧ cpState s false = false := h

/-- Introduction form for token-chunk well-formedness. -/
theorem tokOK_of (lo hi n : Nat) (v : JVal) (h1 : lo ≤ n) (h2 : n < hi) :
    ChunkOK lo hi (Chunk.tok n v) := ⟨h1, h2⟩

/-- Elimination form for token-chunk well-formedness. -/
theorem tokOK_parts {lo hi n : Nat} {v : JVal}
    (h : ChunkOK lo hi (Chunk.tok n v)) : lo ≤ n ∧ n < hi := h

/-- The automaton facts compose over append. -/
theorem autoOK_append {a b : List Char}
    (ha : cpCount a false = 0 ∧ cpState a false = false)
    (hb : cpCount b false = 0 ∧ cpState b false = false) :
    cpCount (a ++ b) false = 0 ∧ cpState (a ++ b) false = false := by
  rw [cpCount_append, cpState_append, ha.1, ha.2, hb.1, hb.2]
  exact ⟨rfl, rfl⟩

/-- Literal-chunk well-formedness composes over append. -/
theorem litOK_append {lo hi : Nat} {a b : List Char}
    (ha' : ChunkOK lo hi (Chunk.lit a)) (hb' : ChunkOK lo hi (Chunk.lit b)) :
    ChunkOK lo hi (Chunk.lit (a ++ b)) := by
  have ha := litOK_parts ha'
  have hb := litOK_parts hb'
  exact litOK_of _ _ _ (cleanLit_append ha.1 hb.1)
    (autoOK_append ⟨ha.2.1, ha.2.2⟩ ⟨hb.2.1, hb.2.2⟩).1
    (autoOK_append ⟨ha.2.1, ha.2.2⟩ ⟨hb.2.1, hb.2.2⟩).2

/-- A quoted path is a well-formed literal chunk once it is clean. -/
theorem quoteOK (lo hi : Nat) (k : List Char)
    (hk : cleanLit (sqlite_quote k) = true) :
    ChunkOK lo hi (Chunk.lit (sqlite_quote k)) :=
  litOK_of _ _ _ hk (sqlite_quote_automaton k).1 (sqlite_quote_automaton k).2

/-- Chunk well-formedness is monotone in the supply window. -/
theorem chunkOK_mono {lo hi lo' hi' : Nat} (h1 : lo' ≤ lo) (h2 : hi ≤ hi')
    {ch : Chunk} (h : ChunkOK lo hi ch) : ChunkOK lo' hi' ch := by
  cases ch with
  | lit s => exact h
  | tok n v =>
    have h' := tokOK_parts h
    exact tokOK_of _ _ _ _ (le_trans h1 h'.1) (lt_of_lt_of_le h'.2 h2)

/-- The compiler invariant is monotone in the supply window. -/
theorem QInv_mono {q : QState} {lo hi lo' hi' : Nat} (h1 : lo' ≤ lo)
    (h2 : hi ≤ hi') (h : QInv q lo hi) : QInv q lo' hi' := by
  obtain ⟨chunks, hq, hne, hok, hlk, hkeys, hnd⟩ := h
  refine ⟨chunks, hq, hne,
    fun ch hch => chunkOK_mono h1 h2 (hok ch hch), hlk, ?_, hnd⟩
  intro p hp
  obtain ⟨m, hm1, hm2, hm3⟩ := hkeys p hp
  exact ⟨m, le_trans h1 hm1, lt_of_lt_of_le hm2 h2, hm3⟩

/-- A state satisfying the invariant has a truthy (set, non-empty)
query text. -/
theorem QInv_truthy {q : QState} {lo hi : Nat} (h : QInv q lo hi) :
    pyTruthy q.query = true := by
  obtain ⟨chunks, hq, hne, _⟩ := h
  cases hc : renderC chunks with
  | nil => exact absurd hc hne
  | cons a l =>
    rw [hq, hc]
    rfl

/-- `_from_equality` establishes the invariant on the window of its one
minted token. -/
theorem qinv_from_equality (k : List Char) (v : JVal) (n : Nat)
    (hk : cleanLit (sqlite_quote k) = true) :
    QInv (q_from_equality k v n) n (n + 1) := by
  refine ⟨[Chunk.lit (strL "( JSON_EXTRACT(data, "), Chunk.lit (sqlite_quote k),
    Chunk.lit (strL ") = "), Chunk.tok n v, Chunk.lit (strL " )")],
    ?_, ?_, ?_, ?_, ?_, ?_⟩
  · show some _ = some _
    simp [renderC, q_from_equality, List.append_assoc]
  · intro hnil
    simp only [renderC, List.append_nil] at hnil
    exact absurd (List.append_eq_nil.mp hnil).1 (by decide)
  · intro ch hch
    simp only [List.mem_cons, List.not_mem_nil, or_false] at hch
    rcases hch with rfl | rfl | rfl | rfl | rfl
    · exact litOK_of _ _ _ (by decide) (by decide) (by decide)
    · exact quoteOK _ _ k hk
    · exact litOK_of _ _ _ (by decide) (by decide) (by decide)
    · exact tokOK_of _ _ _ _ (Nat.le_refl n) (Nat.lt_succ_self n)
    · exact litOK_of _ _ _ (by decide) (by decide) (by decide)
  · intro m w hm
    simp at hm
    rw [hm.1, hm.2]
    show pyLookup [(randkey n, v)] (randkey n) = some v
    have hf : decide (((randkey n, v) : List Char × JVal).1 = randkey n)
        = true := by simp
    rw [pyLookup, List.find?_cons_of_pos
      (p := fun q : List Char × JVal => decide (q.1 = randkey n)) _ hf]
    rfl
  · intro p hp
    have hp' : p ∈ [(randkey n, v)] := hp
    simp only [List.mem_singleton] at hp'
    subst hp'
    exact ⟨n, Nat.le_refl n, Nat.lt_succ_self n, rfl⟩
  · show ([(randkey n, v)].map Prod.fst).Nodup
    simp

/-- `_compare` on a fresh key chain from an unset state: the null
special case yields a token-free invariant state, any other comparison
mints token `n`; either way the invariant holds on `[n, n+1)`. -/
theorem qinv_compare (path : List Seg) (sym : CmpSym) (v : JVal) (n : Nat)
    (hk : cleanLit (sqlite_quote (jsonpathOfSegs path)) = true) :
    ∃ q, q_compare (q_getitem Query.init (ItemArg.many path)) sym v n = .ok q ∧
      QInv q n (n + 1) := by
  have hq : q_compare (q_getitem Query.init (ItemArg.many path)) sym v n =
      if v = JVal.null ∧ sym.isEqNe = true then
        .ok { key := path, qdict := [],
              query := some (nullCmpText (jsonpathOfSegs path) sym),
              ascOrDesc := none }
      else
        .ok { key := path, qdict := [(randkey n, v)],
              query := some (cmpText (jsonpathOfSegs path) sym n),
              ascOrDesc := none } := rfl
  by_cases hnull : v = JVal.null ∧ sym.isEqNe = true
  · rw [hq, if_pos hnull]
    refine ⟨_, rfl, [Chunk.lit (nullCmpText (jsonpathOfSegs path) sym)],
      ?_, ?_, ?_, ?_, ?_, ?_⟩
    · show some _ = some _
      simp [renderC]
    · intro hnil
      simp only [renderC, List.append_nil, nullCmpText] at hnil
      have h1 := (List.append_eq_nil.mp hnil).1
      have h2 := (List.append_eq_nil.mp h1).1
      have h3 := (List.append_eq_nil.mp h2).1
      have h4 := (List.append_eq_nil.mp h3).1
      exact absurd h4 (by decide)
    · intro ch hch
      simp only [List.mem_cons, List.not_mem_nil, or_false] at hch
      subst hch
      have hI : ChunkOK n (n + 1)
          (Chunk.lit (if sym = CmpSym.ne then strL "NOT" else [])) := by
        by_cases hs : sym = CmpSym.ne
        · rw [if_pos hs]; exact litOK_of _ _ _ (by decide) (by decide) (by decide)
        · rw [if_neg hs]; exact litOK_of _ _ _ (by decide) (by decide) (by decide)
      show ChunkOK n (n + 1) (Chunk.lit (strL "( JSON_EXTRACT(data, " ++
        sqlite_quote (jsonpathOfSegs path) ++ strL ") IS " ++
        (if sym = CmpSym.ne then strL "NOT" else []) ++ strL " NULL )"))
      exact litOK_append (litOK_append (litOK_append (litOK_append
        (litOK_of _ _ _ (by decide) (by decide) (by decide))
        (quoteOK _ _ _ hk))
        (litOK_of _ _ _ (by decide) (by decide) (by decide))) hI)
        (litOK_of _ _ _ (by decide) (by decide) (by decide))
    · intro m w hm
      simp at hm
    · intro p hp
      exact absurd hp (List.not_mem_nil p)
    · show (List.map Prod.fst []).Nodup
      simp
  · rw [hq, if_neg hnull]
    refine ⟨_, rfl, [Chunk.lit (strL "( JSON_EXTRACT(data, "),
      Chunk.lit (sqlite_quote (jsonpathOfSegs path)),
      Chunk.lit (strL ") " ++ sym.chars ++ strL " "), Chunk.tok n v,
      Chunk.lit (strL " )")], ?_, ?_, ?_, ?_, ?_, ?_⟩
    · show some _ = some _
      simp [renderC, cmpText, List.append_assoc]
    · intro hnil
      simp only [renderC, List.append_nil] at hnil
      exact absurd (List.append_eq_nil.mp hnil).1 (by decide)
    · intro ch hch
      simp only [List.mem_cons, List.not_mem_nil, or_false] at hch
      rcases hch with rfl | rfl | rfl | rfl | rfl
      · exact litOK_of _ _ _ (by decide) (by decide) (by decide)
      · exact quoteOK _ _ _ hk
      · cases sym <;> exact litOK_of _ _ _ (by decide) (by decide) (by decide)
      · exact tokOK_of _ _ _ _ (Nat.le_refl n) (Nat.lt_succ_self n)
      · exact litOK_of _ _ _ (by decide) (by decide) (by decide)
    · intro m w hm
      simp at hm
      rw [hm.1, hm.2]
      show pyLookup [(randkey n, v)] (randkey n) = some v
      have hf : decide (((randkey n, v) : List Char × JVal).1 = randkey n)
          = true := by simp
      rw [pyLookup, List.find?_cons_of_pos
        (p := fun q : List Char × JVal => decide (q.1 = randkey n)) _ hf]
      rfl
    · intro p hp
      have hp' : p ∈ [(randkey n, v)] := hp
      simp only [List.mem_singleton] at hp'
      subst hp'
      exact ⟨n, Nat.le_refl n, Nat.lt_succ_self n, rfl⟩
    · show ([(randkey n, v)].map Prod.fst).Nodup
      simp

/-- `_logic` combines two invariant states into an invariant state on
the union window: the texts concatenate with the connective between
them and the token maps merge disjointly. -/
theorem qinv_logic {qa qb : QState} {lo mid hi : Nat}
    (ha : QInv qa lo mid) (hb : QInv qb mid hi)
    (hlm : lo ≤ mid) (hmh : mid ≤ hi) (comb : List Char)
    (hcomb : ChunkOK lo hi (Chunk.lit comb)) :
    ∃ qc, q_logic qa qb comb = .ok qc ∧ QInv qc lo hi := by
  have hta := QInv_truthy ha
  have htb := QInv_truthy hb
  obtain ⟨ca, hqa, hnea, hoka, hlka, hkeysa, hnda⟩ := ha
  obtain ⟨cb, hqb, hneb, hokb, hlkb, hkeysb, hndb⟩ := hb
  have hcond : (!pyTruthy qa.query || !pyTruthy qb.query) = false := by
    rw [hta, htb]; rfl
  have hgo : q_logic qa qb comb = .ok { qa with
      qdict := pyDictMerge qa.qdict qb.qdict,
      query := some (strL "( " ++ pyFormatOptStr qa.query ++ strL " " ++
        comb ++ strL " " ++ pyFormatOptStr qb.query ++ strL " )") } := by
    rw [q_logic, hcond]
    rfl
  have hdisj : ∀ p ∈ qb.qdict, ∀ q ∈ qa.qdict, q.1 ≠ p.1 := by
    intro p hp q hq
    obtain ⟨mp, hmp1, hmp2, hmp3⟩ := hkeysb p hp
    obtain ⟨mq, hmq1, hmq2, hmq3⟩ := hkeysa q hq
    rw [hmp3, hmq3]
    intro he
    have := randkey_injective he
    omega
  have hmerge : pyDictMerge qa.qdict qb.qdict = qa.qdict ++ qb.qdict :=
    pyDictMerge_disjoint qb.qdict qa.qdict hdisj hndb
  refine ⟨_, hgo, Chunk.lit (strL "( ") :: ca ++
    (Chunk.lit (strL " " ++ (comb ++ strL " ")) :: cb ++
      [Chunk.lit (strL " )")]), ?_, ?_, ?_, ?_, ?_, ?_⟩
  · show some _ = some _
    rw [hqa, hqb]
    simp [renderC, renderC_append, pyFormatOptStr, List.append_assoc]
  · intro hnil
    have hnil' : strL "( " ++ renderC (ca ++
        (Chunk.lit (strL " " ++ (comb ++ strL " ")) :: cb ++
          [Chunk.lit (strL " )")])) = [] := hnil
    exact absurd (List.append_eq_nil.mp hnil').1 (by decide)
  · intro ch hch
    rcases List.mem_cons.mp hch with rfl | hch1
    · exact litOK_of _ _ _ (by decide) (by decide) (by decide)
    rcases List.mem_append.mp hch1 with h | hch2
    · exact chunkOK_mono (Nat.le_refl lo) hmh (hoka ch h)
    rcases List.mem_cons.mp hch2 with rfl | hch3
    · exact litOK_append (litOK_of _ _ _ (by decide) (by decide) (by decide))
        (litOK_append hcomb (litOK_of _ _ _ (by decide) (by decide) (by decide)))
    rcases List.mem_append.mp hch3 with h | hch4
    · exact chunkOK_mono hlm (Nat.le_refl hi) (hokb ch h)
    · have : ch = Chunk.lit (strL " )") := by simpa using hch4
      subst this
      exact litOK_of _ _ _ (by decide) (by decide) (by decide)
  · intro m w hm
    show pyLookup (pyDictMerge qa.qdict qb.qdict) (randkey m) = some w
    rw [hmerge]
    rcases List.mem_cons.mp hm with hlit | hm1
    · exact Chunk.noConfusion hlit
    rcases List.mem_append.mp hm1 with h | hm2
    · exact pyLookup_append_left _ _ _ _ (hlka m w h)
    rcases List.mem_cons.mp hm2 with hlit | hm3
    · exact Chunk.noConfusion hlit
    rcases List.mem_append.mp hm3 with h | hm4
    · have hwin := tokOK_parts (hokb _ h)
      have hfresh : ∀ p ∈ qa.qdict, p.1 ≠ randkey m := by
        intro p hp
        obtain ⟨mq, hmq1, hmq2, hmq3⟩ := hkeysa p hp
        rw [hmq3]
        intro he
        have := randkey_injective he
        omega
      rw [pyLookup_append_right _ _ _ hfresh]
      exact hlkb m w h
    · have : Chunk.tok m w = Chunk.lit (strL " )") := by simpa using hm4
      exact Chunk.noConfusion this
  · intro p hp
    have hp' : p ∈ pyDictMerge qa.qdict qb.qdict := hp
    rw [hmerge] at hp'
    rcases List.mem_append.mp hp' with h | h
    · obtain ⟨m, hm1, hm2, hm3⟩ := hkeysa p h
      exact ⟨m, hm1, by omega, hm3⟩
    · obtain ⟨m, hm1, hm2, hm3⟩ := hkeysb p h
      exact ⟨m, by omega, hm2, hm3⟩
  · show ((pyDictMerge qa.qdict qb.qdict).map Prod.fst).Nodup
    rw [hmerge, List.map_append]
    refine List.Nodup.append hnda hndb ?_
    intro x hxa hxb
    obtain ⟨p, hp, hpe⟩ := List.mem_map.mp hxa
    obtain ⟨q, hq, hqe⟩ := List.mem_map.mp hxb
    obtain ⟨mp, hmp1, hmp2, hmp3⟩ := hkeysa p hp
    obtain ⟨mq, hmq1, hmq2, hmq3⟩ := hkeysb q hq
    have : randkey mp = randkey mq := by
      rw [← hmp3, ← hmq3, hpe, hqe]
    have := randkey_injective this
    omega

/-- `__invert__` preserves the invariant: it wraps the text and touches
no token. -/
theorem qinv_invert {q : QState} {lo hi : Nat} (h : QInv q lo hi) :
    QInv (q_invert q) lo hi := by
  obtain ⟨c, hq, hne, hok, hlk, hkeys, hnd⟩ := h
  refine ⟨Chunk.lit (strL "( NOT ") :: c ++ [Chunk.lit (strL " )")],
    ?_, ?_, ?_, ?_, hkeys, hnd⟩
  · show some _ = some _
    rw [hq]
    simp [renderC, renderC_append, pyFormatOptStr, List.append_assoc]
  · intro hnil
    have hnil' : strL "( NOT " ++ renderC (c ++ [Chunk.lit (strL " )")]) = []
      := hnil
    exact absurd (List.append_eq_nil.mp hnil').1 (by decide)
  · intro ch hch
    rcases List.mem_cons.mp hch with rfl | hch1
    · exact litOK_of _ _ _ (by decide) (by decide) (by decide)
    rcases List.mem_append.mp hch1 with hh | hch2
    · exact hok ch hh
    · have : ch = Chunk.lit (strL " )") := by simpa using hch2
      subst this
      exact litOK_of _ _ _ (by decide) (by decide) (by decide)
  · intro m w hm
    rcases List.mem_cons.mp hm with hlit | hm1
    · exact Chunk.noConfusion hlit
    rcases List.mem_append.mp hm1 with hh | hm2
    · exact hlk m w hh
    · have : Chunk.tok m w = Chunk.lit (strL " )") := by simpa using hm2
      exact Chunk.noConfusion this

/-- Replaying a clean expression tree through the builder succeeds and
establishes the invariant on the consumed token window. -/
theorem qinv_buildQ : ∀ (e : QExpr), e.clean → ∀ n : Nat,
    ∃ q n', buildQ e n = .ok (q, n') ∧ n ≤ n' ∧ QInv q n n' := by
  intro e
  induction e with
  | cmp path sym v =>
    intro hc n
    obtain ⟨q, hq, hinv⟩ := qinv_compare path sym v n hc
    refine ⟨q, n + 1, ?_, Nat.le_succ n, hinv⟩
    simp only [buildQ, hq, exceptOkBind]
  | qand a b iha ihb =>
    intro hc n
    have hc' : a.clean ∧ b.clean := hc
    obtain ⟨qa, n₁, hba, hna, hinva⟩ := iha hc'.1 n
    obtain ⟨qb, n₂, hbb, hnb, hinvb⟩ := ihb hc'.2 n₁
    obtain ⟨qc, hlg, hinvc⟩ := qinv_logic hinva hinvb hna hnb (strL "AND")
      (litOK_of _ _ _ (by decide) (by decide) (by decide))
    refine ⟨qc, n₂, ?_, le_trans hna hnb, hinvc⟩
    simp only [buildQ, hba, hbb, hlg, exceptOkBind]
  | qor a b iha ihb =>
    intro hc n
    have hc' : a.clean ∧ b.clean := hc
    obtain ⟨qa, n₁, hba, hna, hinva⟩ := iha hc'.1 n
    obtain ⟨qb, n₂, hbb, hnb, hinvb⟩ := ihb hc'.2 n₁
    obtain ⟨qc, hlg, hinvc⟩ := qinv_logic hinva hinvb hna hnb (strL "OR")
      (litOK_of _ _ _ (by decide) (by decide) (by decide))
    refine ⟨qc, n₂, ?_, le_trans hna hnb, hinvc⟩
    simp only [buildQ, hba, hbb, hlg, exceptOkBind]
  | qnot a iha =>
    intro hc n
    obtain ⟨qa, n₁, hba, hna, hinva⟩ := iha hc n
    refine ⟨q_invert qa, n₁, ?_, hna, qinv_invert hinva⟩
    simp only [buildQ, hba, exceptOkBind]

/-- The equality fold of `_query2sql` succeeds on clean keys and
maintains the invariant. -/
theorem foldEq_inv : ∀ (eqs : List (List Char × JVal)) (acc : Option QState)
    (lo n : Nat), lo ≤ n → OptInv acc lo n →
    (∀ p ∈ eqs, cleanLit (sqlite_quote p.1) = true) →
    ∃ acc' n', foldEqualities eqs acc n = .ok (acc', n') ∧ n ≤ n' ∧
      OptInv acc' lo n' := by
  intro eqs
  induction eqs with
  | nil =>
    intro acc lo n hln hinv _
    exact ⟨acc, n, rfl, Nat.le_refl n, hinv⟩
  | cons p rest ih =>
    obtain ⟨k, v⟩ := p
    intro acc lo n hln hinv hcl
    have hkp : cleanLit (sqlite_quote k) = true :=
      hcl (k, v) (List.mem_cons_self _ _)
    have hcl' := fun q hq => hcl q (List.mem_cons_of_mem _ hq)
    cases acc with
    | none =>
      have hinv1 : OptInv (some (q_from_equality k v n)) lo (n + 1) :=
        QInv_mono hln (Nat.le_refl _) (qinv_from_equality k v n hkp)
      obtain ⟨acc', n', hfold, hle, hinv'⟩ :=
        ih (some (q_from_equality k v n)) lo (n + 1) (by omega) hinv1 hcl'
      refine ⟨acc', n', ?_, by omega, hinv'⟩
      simp only [foldEqualities]
      exact hfold
    | some qo =>
      have hinvo : QInv qo lo n := hinv
      obtain ⟨qc, hlg, hinvc⟩ := qinv_logic hinvo
        (qinv_from_equality k v n hkp) hln (Nat.le_succ n) (strL "AND")
        (litOK_of _ _ _ (by decide) (by decide) (by decide))
      obtain ⟨acc', n', hfold, hle, hinv'⟩ :=
        ih (some qc) lo (n + 1) (by omega) hinvc hcl'
      refine ⟨acc', n', ?_, by omega, hinv'⟩
      simp only [foldEqualities, hlg, exceptOkBind]
      exact hfold

/-- The query-argument fold of `_query2sql` succeeds on clean
expression trees and maintains the invariant. -/
theorem foldQ_inv : ∀ (qargs : List QExpr) (acc : Option QState) (lo n : Nat),
    lo ≤ n → OptInv acc lo n → (∀ e ∈ qargs, QExpr.clean e) →
    ∃ acc' n', foldQArgs qargs acc n = .ok (acc', n') ∧ n ≤ n' ∧
      OptInv acc' lo n' := by
  intro qargs
  induction qargs with
  | nil =>
    intro acc lo n hln hinv _
    exact ⟨acc, n, rfl, Nat.le_refl n, hinv⟩
  | cons e rest ih =>
    intro acc lo n hln hinv hcl
    obtain ⟨qe, n₁, hbe, hne, hinve⟩ :=
      qinv_buildQ e (hcl e (List.mem_cons_self _ _)) n
    have hcl' := fun x hx => hcl x (List.mem_cons_of_mem _ hx)
    cases acc with
    | none =>
      have hinv1 : OptInv (some qe) lo n₁ :=
        QInv_mono hln (Nat.le_refl _) hinve
      obtain ⟨acc', n', hfold, hle, hinv'⟩ :=
        ih (some qe) lo n₁ (by omega) hinv1 hcl'
      refine ⟨acc', n', ?_, by omega, hinv'⟩
      simp only [foldQArgs, hbe, exceptOkBind]
      exact hfold
    | some qo =>
      have hinvo : QInv qo lo n := hinv
      obtain ⟨qc, hlg, hinvc⟩ := qinv_logic hinvo hinve hln hne (strL "AND")
        (litOK_of _ _ _ (by decide) (by decide) (by decide))
      obtain ⟨acc', n', hfold, hle, hinv'⟩ :=
        ih (some qc) lo n₁ (by omega) hinvc hcl'
      refine ⟨acc', n', ?_, by omega, hinv'⟩
      simp only [foldQArgs, hbe, hlg, exceptOkBind]
      exact hfold

/-- Looking every scanned token up in an invariant token map yields the
chunk values, in occurrence order. -/
theorem mapM_lookup_chunks (d : List (List Char × JVal)) :
    ∀ chunks : List Chunk,
      (∀ n v, Chunk.tok n v ∈ chunks → pyLookup d (randkey n) = some v) →
      (chunkToks chunks).mapM (fun t =>
        match pyLookup d t with
        | some v => Except.ok v
        | none => Except.error PyErr.keyError) = .ok (chunkVals chunks) := by
  intro chunks
  induction chunks with
  | nil => intro _; rfl
  | cons ch r ih =>
    intro h
    have hr := ih (fun n v hm => h n v (List.mem_cons_of_mem _ hm))
    cases ch with
    | lit s => exact hr
    | tok n v =>
      have hl := h n v (List.mem_cons_self _ _)
      have hstep : chunkToks (Chunk.tok n v :: r) = randkey n :: chunkToks r :=
        rfl
      rw [hstep, List.mapM_cons]
      simp only [hl]
      rw [hr]
      rfl

/-- A pair of the dict-deduplicated equality list comes from the
original list. -/
theorem mem_pyDictOfPairs :
    ∀ (eqs : List (List Char × JVal)) (acc : List (List Char × JVal))
      (p : List Char × JVal),
      p ∈ eqs.foldl (fun acc q => pyDictInsert acc q.1 q.2) acc →
      p ∈ acc ∨ p ∈ eqs := by
  intro eqs
  induction eqs with
  | nil =>
    intro acc p hp
    exact Or.inl hp
  | cons q rest ih =>
    intro acc p hp
    rcases ih (pyDictInsert acc q.1 q.2) p hp with h | h
    · rw [pyDictInsert] at h
      by_cases hc : acc.any (fun x => x.1 = q.1)
      · rw [if_pos hc] at h
        rcases List.mem_map.mp h with ⟨x, hx, hxe⟩
        by_cases hxq : x.1 = q.1
        · rw [if_pos hxq] at hxe
          right
          rw [← hxe]
          exact List.mem_cons_self _ _
        · rw [if_neg hxq] at hxe
          exact Or.inl (hxe ▸ hx)
      · rw [if_neg hc] at h
        rcases List.mem_append.mp h with h1 | h1
        · exact Or.inl h1
        · right
          have : p = (q.1, q.2) := by simpa using h1
          rw [this]
          exact List.mem_cons_self _ _
    · exact Or.inr (List.mem_cons_of_mem _ h)

/-! ## Claim C4 -/

/-- Claim C4: the compiled-query binding invariant.  Every successful
compilation by `_query2sql` (under the token-freshness hypothesis that
each quoted path is free of the token-opener pattern, which holds with
probability one for the source's random tokens) returns a filter text
and binding list that decompose over one chunk list: the text renders
its literal pieces and one `?` per token chunk, the bindings are the
token chunks' values in left-to-right occurrence order, every literal
piece contributes no bind parameter — and therefore the number of `?`
parameters the engine reads equals the number of bindings. -/
theorem c4_binding_invariant (eqs : List (List Char × JVal))
    (qargs : List QExpr) (n : Nat) (qstr : List Char) (qvals : List JVal)
    (heq : ∀ p ∈ eqs, cleanLit (sqlite_quote p.1) = true)
    (hq : ∀ e ∈ qargs, QExpr.clean e)
    (hok : query2sql eqs qargs n = .ok (qstr, qvals)) :
    countParams qstr = qvals.length ∧
    ∃ chunks : List Chunk, qstr = renderSubC chunks ∧
      qvals = chunkVals chunks ∧
      ∀ s, Chunk.lit s ∈ chunks →
        cpCount s false = 0 ∧ cpState s false = false := by
  have heq' : ∀ p ∈ pyDictOfPairs eqs, cleanLit (sqlite_quote p.1) = true := by
    intro p hp
    rcases mem_pyDictOfPairs eqs [] p hp with h | h
    · exact absurd h (List.not_mem_nil p)
    · exact heq p h
  obtain ⟨acc₁, n₁, hf1, hle1, hinv1⟩ :=
    foldEq_inv (pyDictOfPairs eqs) none n n (Nat.le_refl n) trivial heq'
  obtain ⟨acc₂, n₂, hf2, hle2, hinv2⟩ :=
    foldQ_inv qargs acc₁ n n₁ hle1 hinv1 hq
  cases acc₂ with
  | none =>
    have hcomp : query2sql eqs qargs n = .ok (strL "1 = 1", []) := by
      simp only [query2sql, hf1, hf2, exceptOkBind]
    rw [hcomp] at hok
    have hpair := Except.ok.inj hok
    have hs : strL "1 = 1" = qstr := congrArg Prod.fst hpair
    have hv : ([] : List JVal) = qvals := congrArg Prod.snd hpair
    subst hs
    subst hv
    refine ⟨by decide, [Chunk.lit (strL "1 = 1")], by decide, rfl, ?_⟩
    intro s hs'
    have hse : s = strL "1 = 1" := by simpa using hs'
    subst hse
    exact ⟨by decide, by decide⟩
  | some qf =>
    have hinv : QInv qf n n₂ := hinv2
    have ht := QInv_truthy hinv
    obtain ⟨cf, hqf, hnef, hokf, hlkf, hkeysf, hndf⟩ := hinv
    have hcomp : query2sql eqs qargs n =
        .ok (renderSubC cf, chunkVals cf) := by
      simp only [query2sql, hf1, hf2, exceptOkBind, ht, Bool.not_true]
      rw [if_neg (show ¬ ((false : Bool) = true) by decide)]
      rw [hqf]
      simp only [pyFormatOptStr]
      rw [renderC_scanSub n n₂ cf hokf]
      dsimp only
      rw [mapM_lookup_chunks qf.qdict cf hlkf]
      rfl
    rw [hcomp] at hok
    have hpair := Except.ok.inj hok
    have hs : renderSubC cf = qstr := congrArg Prod.fst hpair
    have hv : chunkVals cf = qvals := congrArg Prod.snd hpair
    subst hs
    subst hv
    have hlits : ∀ s, Chunk.lit s ∈ cf →
        cpCount s false = 0 ∧ cpState s false = false := by
      intro s hsm
      exact (litOK_parts (hokf _ hsm)).2
    exact ⟨(countParams_chunks cf hlits).1, cf, rfl, rfl, hlits⟩

set_option maxRecDepth 100000 in
/-- Claim C4, witness: a concrete compilation — one equality pair and
one `&`-combined predicate argument containing a null comparison —
yields two `?` parameters, two bindings in occurrence order, and the
chunk decomposition. -/
theorem c4_binding_invariant_witness :
    query2sql [(strL "$.\"a\"", JVal.int 1)]
      [QExpr.qand (QExpr.cmp [Seg.key (strL "b")] CmpSym.lt (JVal.int 5))
        (QExpr.cmp [Seg.key (strL "c")] CmpSym.eq JVal.null)] 0 =
      .ok (strL "( ( JSON_EXTRACT(data, '$.\"a\"') = ? ) AND ( ( JSON_EXTRACT(data, '$.\"b\"') < ? ) AND ( JSON_EXTRACT(data, '$.\"c\"') IS  NULL ) ) )",
        [JVal.int 1, JVal.int 5]) ∧
    countParams (strL "( ( JSON_EXTRACT(data, '$.\"a\"') = ? ) AND ( ( JSON_EXTRACT(data, '$.\"b\"') < ? ) AND ( JSON_EXTRACT(data, '$.\"c\"') IS  NULL ) ) )") =
      [JVal.int 1, JVal.int 5].length ∧
    (∃ chunks : List Chunk,
      strL "( ( JSON_EXTRACT(data, '$.\"a\"') = ? ) AND ( ( JSON_EXTRACT(data, '$.\"b\"') < ? ) AND ( JSON_EXTRACT(data, '$.\"c\"') IS  NULL ) ) )" =
        renderSubC chunks ∧
      [JVal.int 1, JVal.int 5] = chunkVals chunks ∧
      ∀ s, Chunk.lit s ∈ chunks →
        cpCount s false = 0 ∧ cpState s false = false) :=
  ⟨by decide,
   (c4_binding_invariant [(strL "$.\"a\"", JVal.int 1)]
      [QExpr.qand (QExpr.cmp [Seg.key (strL "b")] CmpSym.lt (JVal.int 5))
        (QExpr.cmp [Seg.key (strL "c")] CmpSym.eq JVal.null)] 0
      (strL "( ( JSON_EXTRACT(data, '$.\"a\"') = ? ) AND ( ( JSON_EXTRACT(data, '$.\"b\"') < ? ) AND ( JSON_EXTRACT(data, '$.\"c\"') IS  NULL ) ) )")
      [JVal.int 1, JVal.int 5] (by decide) (by decide) (by decide)).1,
   (c4_binding_invariant [(strL "$.\"a\"", JVal.int 1)]
      [QExpr.qand (QExpr.cmp [Seg.key (strL "b")] CmpSym.lt (JVal.int 5))
        (QExpr.cmp [Seg.key (strL "c")] CmpSym.eq JVal.null)] 0
      (strL "( ( JSON_EXTRACT(data, '$.\"a\"') = ? ) AND ( ( JSON_EXTRACT(data, '$.\"b\"') < ? ) AND ( JSON_EXTRACT(data, '$.\"c\"') IS  NULL ) ) )")
      [JVal.int 1, JVal.int 5] (by decide) (by decide) (by decide)).2⟩

/-! ## Claim C2 -/

/-- Claim C2, counterexample: an equality pair whose value is `None`
does NOT compile to an `IS NULL` form.  `_from_equality` has no null
special case, so the pair compiles to a placeholder-bound equality:
the returned filter text carries one `?` bind parameter and the binding
list is `[None]` — not the claimed token-free, binding-free form. -/
theorem c2_null_equality_counterexample :
    query2sql [(strL "$.\"key\"", JVal.null)] [] 0 =
      .ok (strL "( JSON_EXTRACT(data, '$.\"key\"') = ? )", [JVal.null]) ∧
    countParams (strL "( JSON_EXTRACT(data, '$.\"key\"') = ? )") = 1 := by
  decide

/-- Claim C2 (amended): the null-aware `IS [NOT] NULL` special case
belongs to the predicate builder's comparisons only.  An equality pair
with a null value compiles through `_from_equality` to a
placeholder-bound equality whose binding list is `[None]`, for every
key and token-supply state; `_compare` on an unset query with `=`/`!=`
and a `None` value emits the `IS [NOT] NULL` form, minting no
placeholder and recording no binding. -/
theorem c2_null_equality_amended (k : List Char) (n : Nat)
    (hk : cleanLit (sqlite_quote k) = true) :
    query2sql [(k, JVal.null)] [] n =
      .ok (strL "( JSON_EXTRACT(data, " ++ sqlite_quote k ++ strL ") = " ++
        ('?' :: strL " )"), [JVal.null]) ∧
    (∀ q : QState, pyTruthy q.query = false →
      q_compare q CmpSym.eq JVal.null n =
        .ok { q with query := some (nullCmpText (jsonpathOfSegs q.key) CmpSym.eq) } ∧
      q_compare q CmpSym.ne JVal.null n =
        .ok { q with query := some (nullCmpText (jsonpathOfSegs q.key) CmpSym.ne) }) := by
  constructor
  · have hP : cleanLit (strL "( JSON_EXTRACT(data, " ++ sqlite_quote k ++
        strL ") = ") = true :=
      cleanLit_append (cleanLit_append (by decide) hk) (by decide)
    have htail : scanSub (randkey n ++ strL " )") =
        ('?' :: strL " )", [randkey n]) := by
      rw [scanSub_token]
      rfl
    have hscan : scanSub ((strL "( JSON_EXTRACT(data, " ++ sqlite_quote k ++
        strL ") = ") ++ (randkey n ++ strL " )")) =
        ((strL "( JSON_EXTRACT(data, " ++ sqlite_quote k ++ strL ") = ") ++
          ('?' :: strL " )"), [randkey n]) := by
      rw [scanSub_lit _ hP, htail]
    have hassoc : strL "( JSON_EXTRACT(data, " ++ sqlite_quote k ++
        strL ") = " ++ randkey n ++ strL " )" =
        (strL "( JSON_EXTRACT(data, " ++ sqlite_quote k ++ strL ") = ") ++
          (randkey n ++ strL " )") :=
      List.append_assoc _ (randkey n) (strL " )")
    have hlk : pyLookup [(randkey n, JVal.null)] (randkey n) =
        some JVal.null := by
      have hf : decide (((randkey n, JVal.null) :
          List Char × JVal).1 = randkey n) = true := by simp
      rw [pyLookup, List.find?_cons_of_pos
        (p := fun q : List Char × JVal => decide (q.1 = randkey n)) _ hf]
      rfl
    have h1 : query2sql [(k, JVal.null)] [] n =
        ((scanSub (strL "( JSON_EXTRACT(data, " ++ sqlite_quote k ++
          strL ") = " ++ randkey n ++ strL " )")).2.mapM (fun t =>
            match pyLookup [(randkey n, JVal.null)] t with
            | some v => Except.ok v
            | none => Except.error PyErr.keyError)) >>= fun vals =>
          Except.ok ((scanSub (strL "( JSON_EXTRACT(data, " ++
            sqlite_quote k ++ strL ") = " ++ randkey n ++ strL " )")).1,
            vals) := rfl
    rw [h1, hassoc, hscan]
    dsimp only
    rw [List.mapM_cons]
    simp only [hlk]
    rfl
  · intro q hq
    have hng : ¬ (pyTruthy q.query = true) := by
      rw [hq]
      exact Bool.false_ne_true
    constructor
    · rw [q_compare, if_neg hng, if_pos ⟨rfl, rfl⟩]
    · rw [q_compare, if_neg hng, if_pos ⟨rfl, rfl⟩]

/-- Claim C2 (amended), witness: the amended theorem at the concrete
key `$."key"` and supply state `0`, with the comparison side taken at a
freshly constructed `Query`. -/
theorem c2_null_equality_witness :
    query2sql [(strL "$.\"key\"", JVal.null)] [] 0 =
      .ok (strL "( JSON_EXTRACT(data, " ++ sqlite_quote (strL "$.\"key\"") ++
        strL ") = " ++ ('?' :: strL " )"), [JVal.null]) ∧
    q_compare Query.init CmpSym.eq JVal.null 0 =
      .ok { Query.init with query := some (nullCmpText (jsonpathOfSegs Query.init.key) CmpSym.eq) } :=
  ⟨(c2_null_equality_amended (strL "$.\"key\"") 0 (by decide)).1,
   ((c2_null_equality_amended (strL "$.\"key\"") 0 (by decide)).2
     Query.init rfl).1⟩
